import Mathlib

/-!
Verification of the configuration-resolution core of the `dl-boilerplate`
repository (`app/common.py`, `app/util.py`), as a shallow embedding in Lean.

Python values that can occur in a configuration mapping are modelled by the
inductive type `Val` (integers, strings, and nested mappings).  A Python
`dict` is modelled as an association list with insertion-order semantics:
`dictGet` finds the first binding, `dictSet` overwrites in place or appends,
`dictDelete` removes the binding.  Real dicts always have duplicate-free
keys; well-formedness is carried as a hypothesis where it matters.

`Model._unfold_config` mutates a dict while iterating over a snapshot of its
keys; the embedding `Model.unfold_config` passes the evolving dict state
explicitly through `unfoldKeys` and uses a fuel parameter to totalise the
(terminating but not structurally recursive) Python recursion.  Python
exceptions raised by the traversal (indexing into a non-dict value) are
modelled by `Option.none`.
-/

/-- A Python value stored in a configuration mapping: an int, a string, or a
nested dict (association list in insertion order). -/
inductive Val where
  | vInt (n : Int)
  | vStr (s : String)
  | vDict (entries : List (String × Val))

/-- A Python dict of configuration values, in insertion order. -/
abbrev Dict := List (String × Val)

mutual
def decEqVal : (a b : Val) → Decidable (a = b)
  | .vInt a, .vInt b =>
    match decEq a b with
    | isTrue h => isTrue (by rw [h])
    | isFalse h => isFalse (fun hh => by cases hh; exact h rfl)
  | .vInt _, .vStr _ => isFalse (fun h => by cases h)
  | .vInt _, .vDict _ => isFalse (fun h => by cases h)
  | .vStr _, .vInt _ => isFalse (fun h => by cases h)
  | .vStr a, .vStr b =>
    match decEq a b with
    | isTrue h => isTrue (by rw [h])
    | isFalse h => isFalse (fun hh => by cases hh; exact h rfl)
  | .vStr _, .vDict _ => isFalse (fun h => by cases h)
  | .vDict _, .vInt _ => isFalse (fun h => by cases h)
  | .vDict _, .vStr _ => isFalse (fun h => by cases h)
  | .vDict a, .vDict b =>
    match decEqEntries a b with
    | isTrue h => isTrue (by rw [h])
    | isFalse h => isFalse (fun hh => by cases hh; exact h rfl)
def decEqEntries : (a b : List (String × Val)) → Decidable (a = b)
  | [], [] => isTrue rfl
  | [], _ :: _ => isFalse (fun h => by cases h)
  | _ :: _, [] => isFalse (fun h => by cases h)
  | (k, v) :: r, (k2, v2) :: r2 =>
    match decEq k k2, decEqVal v v2, decEqEntries r r2 with
    | isTrue h1, isTrue h2, isTrue h3 => isTrue (by rw [h1, h2, h3])
    | isFalse h1, _, _ => isFalse (fun hh => by cases hh; exact h1 rfl)
    | _, isFalse h2, _ => isFalse (fun hh => by cases hh; exact h2 rfl)
    | _, _, isFalse h3 => isFalse (fun hh => by cases hh; exact h3 rfl)
end

instance : DecidableEq Val := decEqVal

/-- `d[k]` for a Python dict: the first binding of `k`, if any. -/
def dictGet (d : Dict) (k : String) : Option Val :=
  match d with
  | [] => none
  | (k2, v) :: rest => if k2 = k then some v else dictGet rest k

/-- `d[k] = v` for a Python dict: overwrite the existing binding in place
(keeping its position) or append a new binding at the end. -/
def dictSet (d : Dict) (k : String) (v : Val) : Dict :=
  match d with
  | [] => [(k, v)]
  | (k2, v2) :: rest =>
    if k2 = k then (k, v) :: rest else (k2, v2) :: dictSet rest k v

/-- `del d[k]` for a Python dict: remove the first binding of `k`. -/
def dictDelete (d : Dict) (k : String) : Dict :=
  match d with
  | [] => []
  | (k2, v2) :: rest =>
    if k2 = k then rest else (k2, v2) :: dictDelete rest k

/-- The keys of a dict, in insertion order (`list(d)` in Python). -/
def dictKeys (d : Dict) : List String := d.map Prod.fst

/-- Whether a key contains a dot (Python `'.' in k`). -/
def hasDot (k : String) : Bool := k.data.contains '.'

def splitDotsAux : List Char → List Char → List (List Char)
  | [], acc => [acc.reverse]
  | c :: rest, acc =>
    if c = '.' then acc.reverse :: splitDotsAux rest [] else splitDotsAux rest (c :: acc)

/-- Python `k.split('.')`. -/
def splitKey (k : String) : List String :=
  (splitDotsAux k.data []).map fun cs => String.mk cs

mutual
/-- Number of nodes of a value; used to bound the recursion fuel. -/
def valSize : Val → Nat
  | .vInt _ => 1
  | .vStr _ => 1
  | .vDict d => 1 + entriesSize d
def entriesSize : List (String × Val) → Nat
  | [] => 0
  | (_, v) :: rest => 1 + valSize v + entriesSize rest
end

/-- The section walk of `Model._unfold_config`: starting from `d`, follow the
intermediate segments (`d = d[sec]`, creating an empty dict when the segment
is absent), then assign `d[last] = v`.  Hitting a non-dict value on the way
raises a `TypeError` in Python, modelled as `none`. -/
def setPath (d : Dict) (segs : List String) (last : String) (v : Val) : Option Dict :=
  match segs with
  | [] => some (dictSet d last v)
  | sec :: rest =>
    match dictGet d sec with
    | some (.vDict inner) =>
      match setPath inner rest last v with
      | none => none
      | some inner2 => some (dictSet d sec (.vDict inner2))
    | some _ => none
    | none =>
      match setPath [] rest last v with
      | none => none
      | some inner2 => some (dictSet d sec (.vDict inner2))

/-- The tail of one loop iteration of `Model._unfold_config`, after the value
has been recursively unfolded: keys without a dot are left alone; a dotted
key is re-inserted along its split path and then deleted. -/
def placeKey (cfg : Dict) (k : String) (v : Val) : Option Dict :=
  if hasDot k then
    match setPath cfg (splitKey k).dropLast ((splitKey k).getLastD "") v with
    | none => none
    | some cfg2 => some (dictDelete cfg2 k)
  else some cfg

/-- The loop of `Model._unfold_config`, processing the snapshot keys in
order over the evolving dict state.  For each key: look up its current value
(the same object as the snapshot value), recursively unfold it if it is a
dict, then `placeKey`.  `fuel` only totalises the recursion; it decreases at
every step and every recursive descent. -/
def unfoldKeys : Nat → Dict → List String → Option Dict
  | _, cfg, [] => some cfg
  | 0, _, _ :: _ => none
  | fuel + 1, cfg, k :: ks =>
    match dictGet cfg k with
    | none => unfoldKeys fuel cfg ks
    | some (.vDict inner) =>
      match unfoldKeys fuel inner (dictKeys inner) with
      | none => none
      | some inner2 =>
        match placeKey (dictSet cfg k (.vDict inner2)) k (.vDict inner2) with
        | none => none
        | some cfg2 => unfoldKeys fuel cfg2 ks
    | some v =>
      match placeKey cfg k v with
      | none => none
      | some cfg2 => unfoldKeys fuel cfg2 ks

namespace Model

/-- `Model._unfold_config(cfg)`: iterate over a snapshot of the items and
resolve every dotted key into a nested-dict chain.  The fuel
`entriesSize cfg + 1` dominates the number of Python loop iterations and
recursive calls (each unit of work consumes a node of the original
structure). -/
def unfold_config (cfg : Dict) : Option Dict :=
  unfoldKeys (entriesSize cfg + 1) cfg (dictKeys cfg)

end Model

instance {ε α : Type _} [DecidableEq ε] [DecidableEq α] : DecidableEq (Except ε α) := fun x y =>
  match x, y with
  | .error a, .error b =>
    if h : a = b then isTrue (by rw [h]) else isFalse (fun hh => by cases hh; exact h rfl)
  | .error _, .ok _ => isFalse (fun h => by cases h)
  | .ok _, .error _ => isFalse (fun h => by cases h)
  | .ok a, .ok b =>
    if h : a = b then isTrue (by rw [h]) else isFalse (fun hh => by cases hh; exact h rfl)

/-! ### Sorting by key

Python `sorted(items, key=itemgetter(0))` is a stable sort by key; it is
modelled by a stable insertion sort (structural, so that concrete instances
evaluate). -/

/-- Lexicographic strict order on char lists (Python string comparison by
code point). -/
def charListLt : List Char → List Char → Bool
  | [], [] => false
  | [], _ :: _ => true
  | _ :: _, [] => false
  | c :: cs, d :: ds => if c < d then true else if d < c then false else charListLt cs ds

/-- Python `a < b` on strings. -/
def keyLt (a b : String) : Bool := charListLt a.data b.data

def insertByKey {β : Type _} (p : String × β) : List (String × β) → List (String × β)
  | [] => [p]
  | q :: rest => if keyLt q.1 p.1 then q :: insertByKey p rest else p :: q :: rest

def sortByKey {β : Type _} : List (String × β) → List (String × β)
  | [] => []
  | p :: rest => insertByKey p (sortByKey rest)

/-! ### `Model.build` and `Model.parse` -/

/-- The Python keywords, which `collections.namedtuple` rejects as field
names. -/
def pythonKeywords : List String :=
  ["False", "None", "True", "and", "as", "assert", "async", "await", "break",
   "class", "continue", "def", "del", "elif", "else", "except", "finally",
   "for", "from", "global", "if", "import", "in", "is", "lambda", "nonlocal",
   "not", "or", "pass", "raise", "return", "try", "while", "with", "yield"]

def isIdentChar (c : Char) : Bool := c.isAlphanum || c = '_'

/-- Validity of a `namedtuple` field name (ASCII model): a valid identifier
that does not start with an underscore or digit and is not a keyword. -/
def isValidFieldName (s : String) : Bool :=
  match s.data with
  | [] => false
  | c :: rest => c.isAlpha && rest.all isIdentChar && !(pythonKeywords.contains s)

namespace Model

/-- `Model.build(**kwargs)`: sort the keyword items by key and build a
`namedtuple` record from them.  `zip(*sorted([]))` raises `ValueError` on an
empty keyword set, and `namedtuple` raises `ValueError` on invalid field
names; both are modelled as `none`.  The record is modelled as its sorted
field list. -/
def buildRecord (kwargs : Dict) : Option Dict :=
  match kwargs with
  | [] => none
  | _ =>
    if kwargs.all (fun p => isValidFieldName p.1) then
      some (sortByKey kwargs)
    else none

end Model

/-- One argument declaration of a model class: an option flag (such as
`-x`), whether it is required, and its default value.  All arguments in the
repository are `type=int`; non-required arguments carry a default. -/
structure ArgSpec where
  flag : String
  required : Bool
  default : Option Int
deriving DecidableEq

/-- The `dest` of an option: the flag without its leading dashes. -/
def destOf (flag : String) : String :=
  String.mk (flag.data.dropWhile (fun c => c = '-'))

def digitsToNatAux : List Char → Nat → Option Nat
  | [], acc => some acc
  | c :: rest, acc =>
    if c.isDigit then digitsToNatAux rest (acc * 10 + (c.toNat - 48)) else none

/-- Integer literal conversion (model of Python `int(s)`, restricted to an
optional minus sign followed by decimal digits). -/
def strToInt (s : String) : Option Int :=
  match s.data with
  | [] => none
  | '-' :: rest =>
    match rest with
    | [] => none
    | _ => (digitsToNatAux rest 0).map (fun n => -(n : Int))
  | cs => (digitsToNatAux cs 0).map (fun n => (n : Int))

/-- `', '.join` and friends. -/
def joinSep (sep : String) : List String → String
  | [] => ""
  | [s] => s
  | s :: rest => s ++ sep ++ joinSep sep rest

/-- Model of the argparse collaborator, restricted to the option shape the
repository declares (single-value typed flags, matched exactly): scan the
tokens, consuming each declared flag together with its following value;
unknown tokens are collected as unrecognized.  Produces the multiset of
given (dest, value) pairs, latest first. -/
def scanTokens (specs : List ArgSpec) :
    List String → List (String × Int) → List String →
    Except String (List (String × Int) × List String)
  | [], seen, extras => .ok (seen, extras.reverse)
  | tok :: rest, seen, extras =>
    match specs.find? (fun s => s.flag = tok) with
    | some spec =>
      match rest with
      | [] => .error ("argument " ++ spec.flag ++ ": expected one argument")
      | vtok :: rest2 =>
        match strToInt vtok with
        | none => .error ("argument " ++ spec.flag ++ ": invalid int value: " ++ vtok)
        | some n => scanTokens specs rest2 ((destOf spec.flag, n) :: seen) extras
    | none => scanTokens specs rest seen (tok :: extras)

/-- End of `parse_args`: report missing required arguments first (as
argparse does, before unrecognized arguments), then unrecognized tokens;
otherwise produce the namespace, one entry per declared argument, given
values overriding defaults. -/
def finishParse (specs : List ArgSpec) (seen : List (String × Int))
    (extras : List String) : Except String (List (String × Int)) :=
  let missing := specs.filter
    (fun s => s.required && !(seen.any (fun p => p.1 = destOf s.flag)))
  if missing.isEmpty then
    if extras.isEmpty then
      .ok (specs.filterMap (fun s =>
        match seen.find? (fun p => p.1 = destOf s.flag) with
        | some p => some (destOf s.flag, p.2)
        | none => s.default.map (fun n => (destOf s.flag, n))))
    else .error ("unrecognized arguments: " ++ joinSep " " extras)
  else
    .error ("the following arguments are required: "
      ++ joinSep ", " (missing.map (fun s => s.flag)))

/-- `parser.parse_args(tokens)` for the declared arguments. -/
def parse_args (specs : List ArgSpec) (tokens : List String) :
    Except String (List (String × Int)) :=
  match scanTokens specs tokens [] [] with
  | .error m => .error m
  | .ok (seen, extras) => finishParse specs seen extras

/-- The exception raised by the overridden `_ArgumentParser.error`, carrying
the parser diagnostic message. -/
structure ParseError where
  msg : String
deriving DecidableEq

/-- `dict(args._get_kwargs())`: the namespace items sorted by name. -/
def namespaceDict (ns : List (String × Int)) : Dict :=
  (sortByKey ns).map (fun p => (p.1, Val.vInt p.2))

namespace Model

/-- `Model.parse(args)`: parse the tokens with an isolated parser whose
`error` raises `ParseError`, convert the result to a keyword mapping,
unflatten it, and `build`.  The inner `Option` models the non-`ParseError`
exceptions of `_unfold_config`/`build` (`TypeError`/`ValueError`). -/
def parse (specs : List ArgSpec) (tokens : List String) :
    Except ParseError (Option Dict) :=
  match parse_args specs tokens with
  | .error m => .error (ParseError.mk m)
  | .ok ns =>
    .ok (match Model.unfold_config (namespaceDict ns) with
      | none => none
      | some cfg => Model.buildRecord cfg)

end Model

/-- The test model kind of `tests/test_common.py`: a required int flag `-x`
and an int flag `-y` defaulting to 10. -/
def modelTestSpecs : List ArgSpec :=
  [ArgSpec.mk "-x" true none, ArgSpec.mk "-y" false (some 10)]

/-! ### `util.namespace_subparser` -/

namespace util

/-- The rewrite `re.sub(r'^(-+)', r'\1' + namespace + '.', s)` applied by
the wrapper of `util.namespace_subparser` to each declared flag token:
insert `namespace` and a dot right after the leading dashes; tokens with no
leading dash are unchanged. -/
def rewriteFlag (ns : String) (s : String) : String :=
  let dashes := s.data.takeWhile (fun c => c = '-')
  if dashes.isEmpty then s
  else String.mk (dashes ++ ns.data ++ '.' :: s.data.dropWhile (fun c => c = '-'))

/-- `namespace_subparser(namespace, parser).add_argument(*args, ...)`
forwards the rewritten flag tokens to the wrapped target. -/
def namespace_subparser (ns : String) (tokens : List String) : List String :=
  tokens.map (rewriteFlag ns)

end util

/-! ### `Workspace` persistence -/

/-- Lower-casing of a string (Python `str.lower`, ASCII model). -/
def lowerStr (s : String) : String := String.mk (s.data.map Char.toLower)

namespace Workspace

/-- The names bound in the `app.models` module: `_get_class` is
`getattr(models, name)`, which succeeds exactly for registered names. -/
abbrev Registry := List String

/-- `Workspace._get_class`; a class is identified by its `__name__`. -/
def get_class (registry : Registry) (name : String) : Option String :=
  if registry.contains name then some name else none

/-- Exceptions that can escape `Workspace._load`. -/
inductive LoadErr where
  | notConfigured
  | attributeError
deriving DecidableEq

/-- `Workspace._save` for a workspace whose model class is named `name`
with configuration `config`: the Python dict literal
`{'model_name': name, name.lower(): config}` (the second binding
overwriting the first when the keys collide), dumped to `config.toml`.
TOML serialisation is modelled as the identity on the document. -/
def save (name : String) (config : Dict) : Dict :=
  dictSet (dictSet [] "model_name" (.vStr name)) (lowerStr name) (.vDict config)

/-- `Workspace._load` on the contents of `config.toml` (`none` models a
missing file).  Python evaluation order: `cfg['model_name']` (KeyError),
`.lower()` (AttributeError on a non-string), `cfg[...]` (KeyError), then
`_get_class` (AttributeError).  FileNotFoundError and KeyError are caught
and re-raised as NotConfiguredError; AttributeError escapes. -/
def load (registry : Registry) (file : Option Dict) :
    Except LoadErr (String × Val) :=
  match file with
  | none => .error .notConfigured
  | some cfg =>
    match dictGet cfg "model_name" with
    | none => .error .notConfigured
    | some (.vStr name) =>
      match dictGet cfg (lowerStr name) with
      | none => .error .notConfigured
      | some sectionVal =>
        match get_class registry name with
        | none => .error .attributeError
        | some cls => .ok (cls, sectionVal)
    | some _ => .error .attributeError

/-- The filesystem state a workspace sees: whether its directory exists and
the contents of `config.toml` (if present). -/
structure FS where
  dirExists : Bool
  file : Option Dict
deriving DecidableEq

/-- `Workspace.path`: create the directory (with parents) when absent,
then return it. -/
def pathAccess (fs : FS) : FS := { fs with dirExists := true }

/-- `.config`/`.model_cls` on a workspace constructed with only a path:
`_load` opens `self.path / 'config.toml'`, and the `path` accessor creates
the directory first; then the load result. -/
def configAccess (registry : Registry) (fs : FS) :
    FS × Except LoadErr (String × Val) :=
  let fs2 := pathAccess fs
  (fs2, load registry fs2.file)

/-- The in-memory state of a `Workspace` object. -/
structure State where
  model_cls : Option String
  config : Option Dict
deriving DecidableEq

/-- `Workspace.__init__(path, model, config)` with a model given: a missing
`config` defaults to the empty mapping. -/
def init_with_model (model : String) (config : Option Dict) : State :=
  { model_cls := some model, config := some (config.getD []) }

/-- `Workspace.build_model()` on a workspace whose configuration is
resolved: `self.model_cls.build(**self.config)`. -/
def build_model (ws : State) : Option Dict :=
  match ws.config with
  | some c => Model.buildRecord c
  | none => none

end Workspace

/-! ### Auxiliary notions used by the statements -/

/-- Whether a string starts with a dash. -/
def headIsDash (s : String) : Bool :=
  match s.data with
  | '-' :: _ => true
  | _ => false

/-- Number of (possibly overlapping) occurrences of `pat` as a substring. -/
def countOccs (pat : List Char) : List Char → Nat
  | [] => 0
  | c :: rest => (if pat.isPrefixOf (c :: rest) then 1 else 0) + countOccs pat rest

/-- Keep the first binding of every key (the view Python dict equality takes
of an association list). -/
def dedupKeysAux : List (String × Val) → List String → List (String × Val)
  | [], _ => []
  | (k, v) :: rest, seen =>
    if seen.contains k then dedupKeysAux rest seen
    else (k, v) :: dedupKeysAux rest (k :: seen)

mutual
/-- Canonical form of a value: every dict is recursively canonicalised,
deduplicated by key and sorted by key.  Two dicts are equal in the Python
`==` sense exactly when their canonical forms coincide. -/
def canonVal : Val → Val
  | .vInt n => .vInt n
  | .vStr s => .vStr s
  | .vDict d => .vDict (sortByKey (dedupKeysAux (canonEntries d) []))
def canonEntries : List (String × Val) → List (String × Val)
  | [] => []
  | (k, v) :: rest => (k, canonVal v) :: canonEntries rest
end

/-- Canonical form of a dict; `canonDict d1 = canonDict d2` models Python
`d1 == d2`. -/
def canonDict (d : Dict) : Dict := sortByKey (dedupKeysAux (canonEntries d) [])

/-- `p` is a (non-strict) prefix of `q`. -/
def pathPre : List String → List String → Bool
  | [], _ => true
  | _ :: _, [] => false
  | a :: as, b :: bs => a = b && pathPre as bs

/-- Neither path is a prefix of the other. -/
def pathsIndep (p q : List String) : Bool := !(pathPre p q) && !(pathPre q p)

def pairwiseIndep : List (List String) → Bool
  | [] => true
  | p :: rest => rest.all (fun q => pathsIndep p q) && pairwiseIndep rest

mutual
/-- The realized write path of every entry of a nested mapping: each key
`k` with value `v` under parent path `p` writes at `p ++ k.split('.')`, and
the entries of a dict value write below that. -/
def valWrites : Val → List (List String)
  | .vInt _ => []
  | .vStr _ => []
  | .vDict d => entriesWrites d
def entriesWrites : List (String × Val) → List (List String)
  | [] => []
  | (k, v) :: rest =>
    splitKey k :: ((valWrites v).map (fun p => splitKey k ++ p) ++ entriesWrites rest)
end

/-- The literal reading of "non-conflicting" in the specification: no two
entries (dotted or not, at any level) write to the same final path. -/
def nonConflicting (cfg : Dict) : Prop := (entriesWrites cfg).Nodup

mutual
/-- The strengthened non-conflict condition: within every dict of the
structure, the split paths of the keys are pairwise non-prefix of one
another (in particular pairwise distinct). -/
def ncStrongVal : Val → Bool
  | .vInt _ => true
  | .vStr _ => true
  | .vDict d => pairwiseIndep (d.map (fun e => splitKey e.1)) && ncStrongEntries d
def ncStrongEntries : List (String × Val) → Bool
  | [] => true
  | (_, v) :: rest => ncStrongVal v && ncStrongEntries rest
end

/-- Strengthened non-conflict for a top-level mapping. -/
def ncStrong (cfg : Dict) : Bool :=
  pairwiseIndep (cfg.map (fun e => splitKey e.1)) && ncStrongEntries cfg

/-! ### Machinery for the order-independence analysis of unflattening -/

/-- The node of a (nested) value at a path. -/
def nodeAtV : List String → Val → Option Val
  | [], v => some v
  | k :: rest, .vDict inner =>
    match dictGet inner k with
    | none => none
    | some w => nodeAtV rest w
  | _ :: _, _ => none

/-- The net write of one processed key into the accumulated structure: walk
the intermediate segments of its split path and set the last one (for a
dot-free key this is a plain top-level set). -/
def applyOp (b : Dict) (k : String) (v : Val) : Option Dict :=
  setPath b (splitKey k).dropLast ((splitKey k).getLastD "") v

/-- The recursive unfold a value receives before being placed, at the fuel
`unfold_config` itself would use on it. -/
def unfoldVal : Val → Option Val
  | .vDict inner =>
    (unfoldKeys (entriesSize inner + 1) inner (dictKeys inner)).map Val.vDict
  | v => some v

/-- The pending entries selected by a processing order. -/
def opsOf (pend : Dict) (ord : List String) : List (String × Val) :=
  ord.filterMap (fun k => (dictGet pend k).map (fun v => (k, v)))

/-- Replay of processed keys as a sequence of unfold-and-place writes. -/
def opsFold : Dict → List (String × Val) → Option Dict
  | b, [] => some b
  | b, (k, v) :: rest =>
    match unfoldVal v with
    | none => none
    | some v2 =>
      match applyOp b k v2 with
      | none => none
      | some b2 => opsFold b2 rest

/-- Invariant of the structure built from writes whose realized paths are
`P`: every node sits either strictly inside a written subtree (at or below
some path of `P`) or is an intermediate dict on the way to one. -/
def BuiltInv (bd : Dict) (P : List (List String)) : Prop :=
  ∀ q v, q ≠ [] → nodeAtV q (.vDict bd) = some v →
    ((∃ inner, v = .vDict inner) ∧ ∃ p ∈ P, pathPre q p = true)
      ∨ ∃ p ∈ P, pathPre p q = true

/-- Joining the chunks with dots recovers the original character list. -/
def joinCh : List (List Char) → List Char
  | [] => []
  | [l] => l
  | l :: rest => l ++ '.' :: joinCh rest

/-- The fresh nested chain `setPath` builds below a missing segment. -/
def chainOf : List String → String → Val → Dict
  | [], last, v => [(last, v)]
  | s :: rest, last, v => [(s, .vDict (chainOf rest last v))]

/-- The key `setPath` inspects at the top level of the dict. -/
def headKeyOf (segs : List String) (last : String) : String :=
  match segs with
  | [] => last
  | s :: _ => s

/-! ## Claim theorems -/

/-- Claim C1: applying `Model._unfold_config` to the mapping
`{"a.b": {"c.d": 10, "c.e": 20}}` yields exactly
`{"a": {"b": {"c": {"d": 10, "e": 20}}}}`: the dotted keys are removed and
replaced by nested-mapping chains, the nested dict value being recursively
unflattened first. -/
theorem unfold_config_example :
    Model.unfold_config [("a.b", .vDict [("c.d", .vInt 10), ("c.e", .vInt 20)])]
      = some [("a", .vDict [("b", .vDict [("c",
          .vDict [("d", .vInt 10), ("e", .vInt 20)])])])] := by
  decide

/-- Claim C3: for the test model kind (required int flag `-x`, flag `-y`
defaulting to 10), `Model.parse(["-x","10"])` succeeds and yields the same
configuration record as `Model.build(x=10, y=10)`. -/
theorem parse_builds_like_build :
    Model.parse modelTestSpecs ["-x", "10"]
        = .ok (some [("x", .vInt 10), ("y", .vInt 10)])
      ∧ Model.buildRecord [("x", .vInt 10), ("y", .vInt 10)]
        = some [("x", .vInt 10), ("y", .vInt 10)] := by
  decide

/-- Claim C9: `Model.build` with zero keyword arguments fails (unpacking
the empty sorted item list raises `ValueError`), so a workspace created
with a model kind and a defaulted (empty) configuration cannot
successfully run `build_model()`. -/
theorem build_empty_fails :
    Model.buildRecord [] = none
      ∧ (Workspace.init_with_model "Simple" none).config = some []
      ∧ Workspace.build_model (Workspace.init_with_model "Simple" none) = none := by
  decide

/-- Claim C10: accessing `.config`/`.model_cls` on an unconfigured
workspace creates the workspace directory (via the `path` accessor) before
`NotConfiguredError` is raised, so the error path changes the filesystem
when the directory did not exist. -/
theorem config_access_creates_dir :
    ∀ (registry : Workspace.Registry) (b : Bool),
      (Workspace.configAccess registry (Workspace.FS.mk b none)).1.dirExists = true
      ∧ (Workspace.configAccess registry (Workspace.FS.mk b none)).2
          = .error .notConfigured
      ∧ (Workspace.configAccess registry (Workspace.FS.mk false none)).1
          ≠ Workspace.FS.mk false none := by
  intro registry b
  refine ⟨rfl, rfl, ?_⟩
  intro h
  cases h

/-- Claim C2 (amended): for every model class name that resolves in the
model registry and whose lower-cased form is not the literal key
`model_name`, creating a workspace with that model and configuration
persists the two-key document, and a fresh load from that document
reconstructs the same model name and an equal configuration. -/
theorem save_load_round_trip :
    ∀ (registry : Workspace.Registry) (name : String) (config : Dict),
      name ∈ registry → lowerStr name ≠ "model_name" →
      Workspace.save name config
          = [("model_name", .vStr name), (lowerStr name, .vDict config)]
        ∧ Workspace.load registry (some (Workspace.save name config))
          = .ok (name, .vDict config) := by
  intro registry name config hreg hne
  have hsym : ¬ ("model_name" = lowerStr name) := fun h => hne h.symm
  have hsave : Workspace.save name config
      = [("model_name", .vStr name), (lowerStr name, .vDict config)] := by
    show dictSet (dictSet [] "model_name" (.vStr name)) (lowerStr name) (.vDict config) = _
    simp [dictSet, hsym]
  refine ⟨hsave, ?_⟩
  show Workspace.load registry (some (Workspace.save name config)) = _
  rw [hsave]
  show Workspace.load registry
      (some [("model_name", .vStr name), (lowerStr name, .vDict config)]) = _
  simp [Workspace.load, dictGet, hsym, Workspace.get_class, hreg]


/-- Claim C2 (counterexample): with the model class named `MODEL_NAME`
(registered), the two keys of the persisted dict literal collide, the
document degenerates to a single key, and reloading raises
`AttributeError` instead of reconstructing the configuration. -/
theorem save_load_collision :
    Workspace.save "MODEL_NAME" [("x", .vInt 10)]
        = [("model_name", .vDict [("x", .vInt 10)])]
      ∧ Workspace.load ["MODEL_NAME"]
          (some (Workspace.save "MODEL_NAME" [("x", .vInt 10)]))
        = .error .attributeError := by
  decide

/-- Witness for the amended C2 round trip at a concrete input. -/
theorem save_load_round_trip_witness :
    Workspace.load ["ModelTest"] (some (Workspace.save "ModelTest" [("x", .vInt 10)]))
      = .ok ("ModelTest", .vDict [("x", .vInt 10)]) :=
  (save_load_round_trip ["ModelTest"] "ModelTest" [("x", .vInt 10)]
    (by decide) (by decide)).2

/-- Claim C7: `.config`/`.model_cls` on a path-only workspace raise
`NotConfiguredError` when the persisted file is absent, lacks the
`model_name` key, or lacks the per-model section keyed by the lower-cased
model name. -/
theorem load_not_configured :
    (∀ registry, Workspace.load registry none = .error .notConfigured)
      ∧ (∀ (registry : Workspace.Registry) (cfg : Dict),
          dictGet cfg "model_name" = none →
          Workspace.load registry (some cfg) = .error .notConfigured)
      ∧ (∀ (registry : Workspace.Registry) (cfg : Dict) (name : String),
          dictGet cfg "model_name" = some (.vStr name) →
          dictGet cfg (lowerStr name) = none →
          Workspace.load registry (some cfg) = .error .notConfigured) := by
  refine ⟨fun registry => rfl, ?_, ?_⟩
  · intro registry cfg h
    show Workspace.load registry (some cfg) = _
    simp [Workspace.load, h]
  · intro registry cfg name h1 h2
    show Workspace.load registry (some cfg) = _
    simp [Workspace.load, h1, h2]

/-- Witness for C7 at concrete inputs: a missing file, a document lacking
`model_name`, and a document lacking the per-model section. -/
theorem load_not_configured_witness :
    Workspace.load [] none = .error .notConfigured
      ∧ Workspace.load [] (some [("foo", .vInt 1)]) = .error .notConfigured
      ∧ Workspace.load [] (some [("model_name", .vStr "Simple")])
          = .error .notConfigured :=
  ⟨load_not_configured.1 [],
   load_not_configured.2.1 [] [("foo", .vInt 1)] (by decide),
   load_not_configured.2.2 [] [("model_name", .vStr "Simple")] "Simple"
     (by decide) (by decide)⟩

/-! ### Order and sorting lemmas -/

theorem string_data_inj {a b : String} (h : a.data = b.data) : a = b :=
  congrArg String.mk h

theorem charListLt_irrefl : ∀ l : List Char, charListLt l l = false := by
  intro l
  induction l with
  | nil => rfl
  | cons c cs ih => simp [charListLt, lt_irrefl, ih]

theorem charListLt_asymm : ∀ a b : List Char,
    charListLt a b = true → charListLt b a = false := by
  intro a
  induction a with
  | nil =>
    intro b h
    cases b with
    | nil => simp [charListLt] at h
    | cons d ds => rfl
  | cons c cs ih =>
    intro b h
    cases b with
    | nil => simp [charListLt] at h
    | cons d ds =>
      by_cases h1 : c < d
      · simp [charListLt, h1, lt_asymm h1]
      · by_cases h2 : d < c
        · simp [charListLt, h1, h2] at h
        · have h3 : charListLt cs ds = true := by simpa [charListLt, h1, h2] using h
          simp [charListLt, h1, h2, ih ds h3]

theorem charListLt_conn : ∀ a b : List Char,
    charListLt a b = false → charListLt b a = false → a = b := by
  intro a
  induction a with
  | nil =>
    intro b h1 h2
    cases b with
    | nil => rfl
    | cons d ds => simp [charListLt] at h1
  | cons c cs ih =>
    intro b h1 h2
    cases b with
    | nil => simp [charListLt] at h2
    | cons d ds =>
      by_cases hcd : c < d
      · simp [charListLt, hcd] at h1
      · by_cases hdc : d < c
        · simp [charListLt, hdc] at h2
        · have hc : c = d := by
            rcases lt_trichotomy c d with h | h | h
            · exact absurd h hcd
            · exact h
            · exact absurd h hdc
          have r1 : charListLt cs ds = false := by
            simpa only [charListLt, if_neg hcd, if_neg hdc] using h1
          have r2 : charListLt ds cs = false := by
            simpa only [charListLt, if_neg hdc, if_neg hcd] using h2
          rw [hc, ih ds r1 r2]

theorem charListLt_total : ∀ a b c : List Char,
    charListLt a c = true → charListLt a b = true ∨ charListLt b c = true := by
  intro a
  induction a with
  | nil =>
    intro b c h
    cases c with
    | nil => simp [charListLt] at h
    | cons z zs =>
      cases b with
      | nil => exact Or.inr h
      | cons y ys => exact Or.inl (by simp [charListLt])
  | cons x xs ih =>
    intro b c h
    cases c with
    | nil => simp [charListLt] at h
    | cons z zs =>
      cases b with
      | nil => exact Or.inr (by simp [charListLt])
      | cons y ys =>
        by_cases hxz : x < z
        · rcases lt_trichotomy x y with hxy | hxy | hxy
          · exact Or.inl (by simp [charListLt, hxy])
          · have hyz : y < z := hxy ▸ hxz
            exact Or.inr (by simp [charListLt, hyz])
          · have hyz : y < z := lt_trans hxy hxz
            exact Or.inr (by simp [charListLt, hyz])
        · by_cases hzx : z < x
          · simp [charListLt, hxz, hzx] at h
          · have hxez : x = z := by
              rcases lt_trichotomy x z with h0 | h0 | h0
              · exact absurd h0 hxz
              · exact h0
              · exact absurd h0 hzx
            have hrec : charListLt xs zs = true := by
              simpa [charListLt, hxz, hzx] using h
            rcases lt_trichotomy x y with hxy | hxy | hxy
            · exact Or.inl (by simp [charListLt, hxy])
            · rcases ih ys zs hrec with h4 | h4
              · exact Or.inl (by simp [charListLt, hxy ▸ hxz, hxy ▸ lt_irrefl x, h4, hxy])
              · have hyz : ¬ y < z := hxy ▸ hxez ▸ hxz
                have hzy : ¬ z < y := hxy ▸ hxez ▸ hzx
                exact Or.inr (by simp [charListLt, hyz, hzy, h4])
            · have hyx : y < x := hxy
              have hyz : y < z := hxez ▸ hyx
              exact Or.inr (by simp [charListLt, hyz])

theorem keyLt_asymm {a b : String} (h : keyLt a b = true) : keyLt b a = false :=
  charListLt_asymm a.data b.data h

theorem keyLt_conn {a b : String} (h1 : keyLt a b = false) (h2 : keyLt b a = false) :
    a = b :=
  string_data_inj (charListLt_conn a.data b.data h1 h2)

theorem keyLt_total {a b c : String} (h : keyLt a c = true) :
    keyLt a b = true ∨ keyLt b c = true :=
  charListLt_total a.data b.data c.data h

theorem insertByKey_perm {β : Type _} (p : String × β) :
    ∀ l : List (String × β), (insertByKey p l).Perm (p :: l) := by
  intro l
  induction l with
  | nil => exact List.Perm.refl _
  | cons q rest ih =>
    by_cases h : keyLt q.1 p.1 = true
    · have he : insertByKey p (q :: rest) = q :: insertByKey p rest := by
        simp only [insertByKey, if_pos h]
      rw [he]
      exact ((ih.cons q).trans (List.Perm.swap p q rest))
    · have he : insertByKey p (q :: rest) = p :: q :: rest := by
        simp only [insertByKey, if_neg h]
      rw [he]

theorem sortByKey_perm {β : Type _} :
    ∀ l : List (String × β), (sortByKey l).Perm l := by
  intro l
  induction l with
  | nil => exact List.Perm.refl _
  | cons p rest ih =>
    have h1 : (insertByKey p (sortByKey rest)).Perm (p :: sortByKey rest) :=
      insertByKey_perm p _
    exact h1.trans (ih.cons p)

theorem insertByKey_sorted {β : Type _} (p : String × β) :
    ∀ {l : List (String × β)},
      l.Pairwise (fun a b => keyLt b.1 a.1 = false) →
      (insertByKey p l).Pairwise (fun a b => keyLt b.1 a.1 = false) := by
  intro l
  induction l with
  | nil => intro _; exact List.pairwise_singleton _ _
  | cons q rest ih =>
    intro hs
    rcases List.pairwise_cons.mp hs with ⟨hq, hrest⟩
    by_cases h : keyLt q.1 p.1 = true
    · have he : insertByKey p (q :: rest) = q :: insertByKey p rest := by
        simp only [insertByKey, if_pos h]
      rw [he]
      have hsorted : (insertByKey p rest).Pairwise
          (fun a b => keyLt b.1 a.1 = false) := ih hrest
      refine List.pairwise_cons.mpr ⟨?_, hsorted⟩
      intro x hx
      have hx2 : x ∈ p :: rest := (insertByKey_perm p rest).subset hx
      rcases List.mem_cons.mp hx2 with rfl | hx3
      · exact keyLt_asymm h
      · exact hq x hx3
    · have h2 : keyLt q.1 p.1 = false := by
        cases hb : keyLt q.1 p.1
        · rfl
        · exact absurd hb h
      have he : insertByKey p (q :: rest) = p :: q :: rest := by
        simp only [insertByKey, if_neg h]
      rw [he]
      refine List.pairwise_cons.mpr ⟨?_, hs⟩
      intro x hx
      rcases List.mem_cons.mp hx with rfl | hx2
      · exact h2
      · cases hb : keyLt x.1 p.1
        · rfl
        · rcases keyLt_total hb with h3 | h3
          · rw [hq x hx2] at h3
            cases h3
          · rw [h2] at h3
            cases h3

theorem sortByKey_sorted {β : Type _} :
    ∀ l : List (String × β),
      (sortByKey l).Pairwise (fun a b => keyLt b.1 a.1 = false) := by
  intro l
  induction l with
  | nil => exact List.Pairwise.nil
  | cons p rest ih => exact insertByKey_sorted p ih

theorem sorted_nodup_eq {β : Type _} :
    ∀ (l1 l2 : List (String × β)),
      l1.Perm l2 →
      l1.Pairwise (fun a b => keyLt b.1 a.1 = false) →
      l2.Pairwise (fun a b => keyLt b.1 a.1 = false) →
      (l1.map Prod.fst).Nodup → l1 = l2 := by
  intro l1 l2 hp hs1 hs2 hnd1
  have hnd1p : l1.Pairwise (fun a b : String × β => a.1 ≠ b.1) :=
    List.pairwise_map.mp hnd1
  have hnd2p : l2.Pairwise (fun a b : String × β => a.1 ≠ b.1) :=
    (List.pairwise_map.mp ((hp.map Prod.fst).nodup_iff.mp hnd1))
  have hstrict : ∀ {m : List (String × β)},
      m.Pairwise (fun a b => keyLt b.1 a.1 = false) →
      m.Pairwise (fun a b : String × β => a.1 ≠ b.1) →
      m.Pairwise (fun a b => keyLt a.1 b.1 = true) := by
    intro m hle hne
    refine (hle.and hne).imp ?_
    intro a b hab
    cases hb : keyLt a.1 b.1
    · exact absurd (keyLt_conn hb hab.1) hab.2
    · rfl
  haveI : IsAntisymm (String × β) (fun a b => keyLt a.1 b.1 = true) := by
    constructor
    intro a b h1 h2
    rw [keyLt_asymm h1] at h2
    cases h2
  exact List.eq_of_perm_of_sorted hp (hstrict hs1 hnd1p) (hstrict hs2 hnd2p)

/-- The sort underlying `Model.build` is determined by the key-value set:
permuted inputs with duplicate-free keys sort identically. -/
theorem sortByKey_perm_input_eq {β : Type _} (l1 l2 : List (String × β))
    (hp : l1.Perm l2) (hnd : (l1.map Prod.fst).Nodup) :
    sortByKey l1 = sortByKey l2 := by
  have h1 := sortByKey_perm l1
  have h2 := sortByKey_perm l2
  have hp2 : (sortByKey l1).Perm (sortByKey l2) := (h1.trans hp).trans h2.symm
  have hnd2 : ((sortByKey l1).map Prod.fst).Nodup :=
    ((h1.map Prod.fst).nodup_iff).mpr hnd
  exact sorted_nodup_eq _ _ hp2 (sortByKey_sorted l1) (sortByKey_sorted l2) hnd2

/-! ### Helper lemmas for takeWhile and dropWhile over leading dashes -/

theorem takeWhile_dash_replicate (m : Nat) (l : List Char) :
    (List.replicate m '-' ++ l).takeWhile (fun c => c = '-')
      = List.replicate m '-' ++ l.takeWhile (fun c => c = '-') := by
  induction m with
  | zero => simp
  | succ n ih => simp [List.replicate_succ, List.takeWhile_cons, ih]

theorem dropWhile_dash_replicate (m : Nat) (l : List Char) :
    (List.replicate m '-' ++ l).dropWhile (fun c => c = '-')
      = l.dropWhile (fun c => c = '-') := by
  induction m with
  | zero => simp
  | succ n ih => simp [List.replicate_succ, List.dropWhile_cons, ih]

theorem takeWhile_dash_of_headIsDash_false {s : String} (h : headIsDash s = false) :
    s.data.takeWhile (fun c => c = '-') = []
      ∧ s.data.dropWhile (fun c => c = '-') = s.data := by
  cases hd : s.data with
  | nil => simp
  | cons c t =>
    have hc : ¬ (c = '-') := by
      intro hh
      rw [headIsDash, hd, hh] at h
      simp at h
    constructor
    · simp [List.takeWhile_cons, hc]
    · simp [List.dropWhile_cons, hc]

/-- Claim C4: tokens that do not satisfy the declared schema make
`Model.parse` return a catchable `ParseError` carrying the parser
diagnostic (it does not terminate the process); a missing required flag
yields the message naming that flag, and the message names `-x` exactly
once. -/
theorem parse_raises_parse_error :
    (∀ (tokens : List String) (m : String),
        parse_args modelTestSpecs tokens = .error m →
        Model.parse modelTestSpecs tokens = .error (ParseError.mk m))
      ∧ (∀ (s : String) (n : Int), strToInt s = some n →
          Model.parse modelTestSpecs ["-y", s]
            = .error (ParseError.mk "the following arguments are required: -x"))
      ∧ Model.parse modelTestSpecs []
          = .error (ParseError.mk "the following arguments are required: -x")
      ∧ countOccs ("-x".data) ("the following arguments are required: -x".data) = 1 := by
  refine ⟨?_, ?_, by decide, by decide⟩
  · intro tokens m h
    simp [Model.parse, h]
  · intro s n hs
    have hscan : scanTokens modelTestSpecs ["-y", s] [] []
        = .ok ([("y", n)], []) := by
      simp [scanTokens, modelTestSpecs, hs, destOf]
    have hfin : finishParse modelTestSpecs [("y", n)] []
        = .error "the following arguments are required: -x" := by
      simp +decide [finishParse, modelTestSpecs, destOf, joinSep]
    simp [Model.parse, parse_args, hscan, hfin]

/-- Witness for C4 at concrete inputs. -/
theorem parse_raises_parse_error_witness :
    Model.parse modelTestSpecs ["-y"]
        = .error (ParseError.mk "argument -y: expected one argument")
      ∧ Model.parse modelTestSpecs ["-y", "7"]
        = .error (ParseError.mk "the following arguments are required: -x") :=
  ⟨parse_raises_parse_error.1 ["-y"] "argument -y: expected one argument" (by decide),
   parse_raises_parse_error.2.1 "7" 7 (by decide)⟩

/-- Claim C5: the namespaced argument wrapper rewrites a flag token (one or
more leading dashes followed by a name) by inserting the namespace and a
dot right after the dashes, passes tokens with no leading dash through
unchanged, and composes, `inner` wrapped in `outer` producing
`-outer.inner.foo`. -/
theorem namespaced_flag_rewrite :
    (∀ (ns name : String) (m : Nat), 0 < m → headIsDash name = false →
        util.rewriteFlag ns (String.mk (List.replicate m '-' ++ name.data))
          = String.mk (List.replicate m '-' ++ (ns.data ++ '.' :: name.data)))
      ∧ (∀ (ns s : String), headIsDash s = false → util.rewriteFlag ns s = s)
      ∧ util.namespace_subparser "l1" ["-foo"] = ["-l1.foo"]
      ∧ util.namespace_subparser "outer" (util.namespace_subparser "inner" ["-foo"])
          = ["-outer.inner.foo"] := by
  refine ⟨?_, ?_, by decide, by decide⟩
  · intro ns name m hm hname
    rcases takeWhile_dash_of_headIsDash_false hname with ⟨ht, hd⟩
    cases m with
    | zero => cases hm
    | succ m0 =>
      show util.rewriteFlag ns (String.mk (List.replicate (m0 + 1) '-' ++ name.data)) = _
      rw [util.rewriteFlag]
      simp only [takeWhile_dash_replicate, dropWhile_dash_replicate, ht, hd,
        List.append_nil]
      simp [List.replicate_succ, List.append_assoc]
  · intro ns s h
    rcases takeWhile_dash_of_headIsDash_false h with ⟨ht, hd⟩
    rw [util.rewriteFlag]
    simp only [ht, List.isEmpty_nil, if_true]

/-- Witness for C5 at concrete inputs. -/
theorem namespaced_flag_rewrite_witness :
    util.rewriteFlag "l1" (String.mk (List.replicate 1 '-' ++ "foo".data))
        = String.mk (List.replicate 1 '-' ++ ("l1".data ++ '.' :: "foo".data))
      ∧ util.rewriteFlag "l1" "foo" = "foo" :=
  ⟨namespaced_flag_rewrite.1 "l1" "foo" 1 (by decide) (by decide),
   namespaced_flag_rewrite.2.1 "l1" "foo" (by decide)⟩

/-- Claim C6: `Model.build` sorts the keyword set by key, so any two calls
passing the same non-empty key-value set in any call-site order yield the
same (structurally identical) configuration record, and the record fields
are sorted by key. -/
theorem build_deterministic_sorted :
    ∀ (kw1 kw2 : Dict), kw1 ≠ [] → (kw1.map Prod.fst).Nodup →
      (∀ p ∈ kw1, isValidFieldName p.1 = true) → kw1.Perm kw2 →
      ∃ r, Model.buildRecord kw1 = some r ∧ Model.buildRecord kw2 = some r
        ∧ r.Pairwise (fun a b : String × Val => keyLt b.1 a.1 = false) := by
  intro kw1 kw2 hne hnd hvalid hp
  refine ⟨sortByKey kw1, ?_, ?_, ?_⟩
  · cases kw1 with
    | nil => exact absurd rfl hne
    | cons p rest =>
      have hall : (p :: rest).all (fun q => isValidFieldName q.1) = true :=
        List.all_eq_true.mpr (fun x hx => hvalid x hx)
      simp [Model.buildRecord, hall]
  · cases hk2 : kw2 with
    | nil =>
      rw [hk2] at hp
      have := hp.symm.length_eq
      cases kw1 with
      | nil => exact absurd rfl hne
      | cons p rest => simp at this
    | cons p rest =>
      have hall : (p :: rest).all (fun q => isValidFieldName q.1) = true := by
        refine List.all_eq_true.mpr (fun x hx => ?_)
        exact hvalid x (hp.symm.subset (hk2 ▸ hx))
      have hsort : sortByKey kw2 = sortByKey kw1 :=
        sortByKey_perm_input_eq kw2 kw1 hp.symm
          ((hp.map Prod.fst).nodup_iff.mp hnd)
      rw [← hk2]
      simp [Model.buildRecord, hk2, hall]
      rw [← hk2, hsort]
  · exact sortByKey_sorted kw1

/-- Witness for C6 at concrete inputs. -/
theorem build_deterministic_sorted_witness :
    ∃ r, Model.buildRecord [("y", .vInt 1), ("x", .vInt 2)] = some r
      ∧ Model.buildRecord [("x", .vInt 2), ("y", .vInt 1)] = some r
      ∧ r.Pairwise (fun a b : String × Val => keyLt b.1 a.1 = false) :=
  build_deterministic_sorted [("y", .vInt 1), ("x", .vInt 2)]
    [("x", .vInt 2), ("y", .vInt 1)] (by decide) (by decide) (by decide)
    (List.Perm.swap _ _ _)

/-! ### Path lemmas -/

theorem pathPre_refl : ∀ p : List String, pathPre p p = true := by
  intro p
  induction p with
  | nil => rfl
  | cons a as ih => simp [pathPre, ih]

theorem pathPre_trans : ∀ a b c : List String,
    pathPre a b = true → pathPre b c = true → pathPre a c = true := by
  intro a
  induction a with
  | nil => intro b c h1 h2; rfl
  | cons x xs ih =>
    intro b c h1 h2
    cases b with
    | nil => simp [pathPre] at h1
    | cons y ys =>
      cases c with
      | nil => simp [pathPre] at h2
      | cons z zs =>
        simp only [pathPre, Bool.and_eq_true, decide_eq_true_eq] at h1 h2 ⊢
        exact ⟨h1.1.trans h2.1, ih ys zs h1.2 h2.2⟩

theorem pathPre_append : ∀ p r : List String, pathPre p (p ++ r) = true := by
  intro p r
  induction p with
  | nil => rfl
  | cons a as ih => simp [pathPre, ih]

theorem pathsIndep_symm (p q : List String) : pathsIndep p q = pathsIndep q p := by
  simp [pathsIndep, Bool.and_comm]

theorem pathsIndep_cons (s : String) (p q : List String) :
    pathsIndep (s :: p) (s :: q) = pathsIndep p q := by
  simp [pathsIndep, pathPre]

theorem pathsIndep_eq_false_iff (p q : List String) :
    pathsIndep p q = false ↔ pathPre p q = true ∨ pathPre q p = true := by
  rw [pathsIndep]
  cases h1 : pathPre p q <;> cases h2 : pathPre q p <;> simp

theorem pathsIndep_ne (p q : List String) (h : pathsIndep p q = true) : p ≠ q := by
  intro he
  rw [he] at h
  simp [pathsIndep, pathPre_refl] at h

theorem pairwiseIndep_iff (l : List (List String)) :
    pairwiseIndep l = true ↔ l.Pairwise (fun p q => pathsIndep p q = true) := by
  induction l with
  | nil => simp [pairwiseIndep]
  | cons p rest ih =>
    simp [pairwiseIndep, List.pairwise_cons, ih, List.all_eq_true]

theorem pairwiseIndep_perm {l1 l2 : List (List String)} (h : l1.Perm l2)
    (h1 : pairwiseIndep l1 = true) : pairwiseIndep l2 = true := by
  rw [pairwiseIndep_iff] at h1 ⊢
  exact (List.Perm.pairwise_iff (fun hab => by rw [pathsIndep_symm]; exact hab) h).mp h1

/-! ### splitKey lemmas -/

theorem splitDotsAux_ne_nil : ∀ (cs acc : List Char), splitDotsAux cs acc ≠ [] := by
  intro cs
  induction cs with
  | nil => intro acc h; simp [splitDotsAux] at h
  | cons c rest ih =>
    intro acc
    by_cases hc : c = '.'
    · simp [splitDotsAux, hc]
    · simp only [splitDotsAux, if_neg hc]
      exact ih _

theorem splitKey_ne_nil (k : String) : splitKey k ≠ [] := by
  intro h
  rw [splitKey] at h
  exact splitDotsAux_ne_nil k.data [] (List.map_eq_nil_iff.mp h)

theorem string_mk_data (s : String) : String.mk s.data = s := rfl

theorem splitDotsAux_no_dot : ∀ (cs acc : List Char), ('.' ∈ cs → False) →
    splitDotsAux cs acc = [acc.reverse ++ cs] := by
  intro cs
  induction cs with
  | nil => intro acc h; simp [splitDotsAux]
  | cons c rest ih =>
    intro acc h
    have hc : ¬ (c = '.') := fun hh => h (by rw [hh]; exact List.mem_cons_self _ _)
    simp only [splitDotsAux, if_neg hc]
    rw [ih (c :: acc) (fun hm => h (List.mem_cons_of_mem c hm))]
    simp

theorem splitKey_no_dot {k : String} (h : hasDot k = false) : splitKey k = [k] := by
  have hmem : '.' ∈ k.data → False := by
    intro hm
    rw [hasDot] at h
    simp at h
    exact h hm
  rw [splitKey, splitDotsAux_no_dot k.data [] hmem]
  simp [string_mk_data]

theorem splitDotsAux_two_le : ∀ (cs acc : List Char), '.' ∈ cs →
    2 ≤ (splitDotsAux cs acc).length := by
  intro cs
  induction cs with
  | nil => intro acc h; simp at h
  | cons c rest ih =>
    intro acc h
    by_cases hc : c = '.'
    · simp only [splitDotsAux, if_pos hc, List.length_cons]
      have := splitDotsAux_ne_nil rest []
      have hlen : 1 ≤ (splitDotsAux rest []).length := by
        cases hx : splitDotsAux rest [] with
        | nil => exact absurd hx this
        | cons a b => simp
      omega
    · simp only [splitDotsAux, if_neg hc]
      rcases List.mem_cons.mp h with h1 | h1
      · exact absurd h1.symm hc
      · exact ih _ h1

theorem splitKey_two_le {k : String} (h : hasDot k = true) :
    2 ≤ (splitKey k).length := by
  rw [splitKey, List.length_map]
  apply splitDotsAux_two_le
  rw [hasDot] at h
  simpa using h

theorem joinCh_splitDotsAux : ∀ (cs acc : List Char),
    joinCh (splitDotsAux cs acc) = acc.reverse ++ cs := by
  intro cs
  induction cs with
  | nil => intro acc; simp [splitDotsAux, joinCh]
  | cons c rest ih =>
    intro acc
    by_cases hc : c = '.'
    · simp only [splitDotsAux, if_pos hc]
      have hne := splitDotsAux_ne_nil rest []
      cases hx : splitDotsAux rest [] with
      | nil => exact absurd hx hne
      | cons a b =>
        have : joinCh (acc.reverse :: a :: b) = acc.reverse ++ '.' :: joinCh (a :: b) := rfl
        rw [this, ← hx, ih []]
        simp [hc]
    · simp only [splitDotsAux, if_neg hc]
      rw [ih (c :: acc)]
      simp

theorem splitKey_inj {k1 k2 : String} (h : splitKey k1 = splitKey k2) : k1 = k2 := by
  have h2 : (splitKey k1).map String.data = (splitKey k2).map String.data := by rw [h]
  rw [splitKey, splitKey, List.map_map, List.map_map] at h2
  have h3 : splitDotsAux k1.data [] = splitDotsAux k2.data [] := by
    have : (String.data ∘ fun cs => String.mk cs) = id := rfl
    rw [this] at h2
    simpa using h2
  have h4 := joinCh_splitDotsAux k1.data []
  rw [h3, joinCh_splitDotsAux k2.data []] at h4
  simp at h4
  exact string_data_inj h4.symm

theorem splitKey_dropLast_append (k : String) :
    (splitKey k).dropLast ++ [(splitKey k).getLastD ""] = splitKey k := by
  cases hx : splitKey k with
  | nil => exact absurd hx (splitKey_ne_nil k)
  | cons a b =>
    rw [List.getLastD_eq_getLast?, List.getLast?_eq_getLast (a :: b) (by simp)]
    simp [List.dropLast_append_getLast]

/-! ### Dict operation lemmas -/

theorem dictGet_dictSet (d : Dict) (k k2 : String) (v : Val) :
    dictGet (dictSet d k v) k2 = if k2 = k then some v else dictGet d k2 := by
  induction d with
  | nil =>
    by_cases h : k2 = k
    · subst h; simp [dictSet, dictGet]
    · simp [dictSet, dictGet, h, Ne.symm h]
  | cons p rest ih =>
    by_cases hp : p.1 = k
    · by_cases h : k2 = k
      · subst h; simp [dictSet, dictGet, hp]
      · have hp2 : ¬ (p.1 = k2) := fun hh => (Ne.symm h) (hp.symm.trans hh)
        simp [dictSet, dictGet, hp, h, Ne.symm h, hp2]
    · by_cases hq : p.1 = k2
      · have hk : ¬ (k2 = k) := fun hh => hp (hq.trans hh)
        simp [dictSet, dictGet, hp, hq, hk]
      · simp [dictSet, dictGet, hp, hq, ih]

theorem dictGet_eq_none_iff (d : Dict) (k : String) :
    dictGet d k = none ↔ k ∉ dictKeys d := by
  induction d with
  | nil => simp [dictGet, dictKeys]
  | cons p rest ih =>
    by_cases hp : p.1 = k
    · simp [dictGet, dictKeys, hp]
    · rw [dictGet, if_neg hp, ih]
      have hk : dictKeys (p :: rest) = p.1 :: dictKeys rest := rfl
      rw [hk, List.mem_cons, not_or]
      constructor
      · intro h
        exact ⟨fun hh => hp hh.symm, h⟩
      · intro h
        exact h.2

theorem dictGet_append_left {d1 : Dict} (d2 : Dict) {k : String}
    (h : k ∈ dictKeys d1) :
    dictGet (d1 ++ d2) k = dictGet d1 k := by
  induction d1 with
  | nil => simp [dictKeys] at h
  | cons p rest ih =>
    by_cases hp : p.1 = k
    · simp [dictGet, hp]
    · rcases List.mem_cons.mp h with h1 | h1
      · exact absurd h1.symm hp
      · simp [dictGet, hp, ih h1]

theorem dictGet_append_right {d1 : Dict} (d2 : Dict) {k : String}
    (h : k ∉ dictKeys d1) :
    dictGet (d1 ++ d2) k = dictGet d2 k := by
  induction d1 with
  | nil => simp
  | cons p rest ih =>
    have hp : ¬ (p.1 = k) := fun hh => h (by simp [dictKeys, hh])
    have h2 : k ∉ dictKeys rest := fun hh => h (by simp [dictKeys] at hh ⊢; right; exact hh)
    simp [dictGet, hp, ih h2]

theorem dictSet_append_left {d1 : Dict} (d2 : Dict) {k : String} (v : Val)
    (h : k ∈ dictKeys d1) :
    dictSet (d1 ++ d2) k v = dictSet d1 k v ++ d2 := by
  induction d1 with
  | nil => simp [dictKeys] at h
  | cons p rest ih =>
    by_cases hp : p.1 = k
    · simp [dictSet, hp]
    · rcases List.mem_cons.mp h with h1 | h1
      · exact absurd h1.symm hp
      · simp [dictSet, hp, ih h1]

theorem dictSet_append_right {d1 : Dict} (d2 : Dict) {k : String} (v : Val)
    (h : k ∉ dictKeys d1) :
    dictSet (d1 ++ d2) k v = d1 ++ dictSet d2 k v := by
  induction d1 with
  | nil => simp
  | cons p rest ih =>
    have hp : ¬ (p.1 = k) := fun hh => h (by simp [dictKeys, hh])
    have h2 : k ∉ dictKeys rest := fun hh => h (by simp [dictKeys] at hh ⊢; right; exact hh)
    simp [dictSet, hp, ih h2]

theorem dictDelete_append_left {d1 : Dict} (d2 : Dict) {k : String}
    (h : k ∈ dictKeys d1) :
    dictDelete (d1 ++ d2) k = dictDelete d1 k ++ d2 := by
  induction d1 with
  | nil => simp [dictKeys] at h
  | cons p rest ih =>
    by_cases hp : p.1 = k
    · simp [dictDelete, hp]
    · rcases List.mem_cons.mp h with h1 | h1
      · exact absurd h1.symm hp
      · simp [dictDelete, hp, ih h1]

theorem dictKeys_dictSet_mem {d : Dict} {k : String} (v : Val)
    (h : k ∈ dictKeys d) :
    dictKeys (dictSet d k v) = dictKeys d := by
  induction d with
  | nil => simp [dictKeys] at h
  | cons p rest ih =>
    by_cases hp : p.1 = k
    · simp [dictSet, dictKeys, hp]
    · rcases List.mem_cons.mp h with h1 | h1
      · exact absurd h1.symm hp
      · simp [dictSet, dictKeys, hp]
        exact ih h1

theorem dictSet_eq_append {d : Dict} {k : String} (v : Val)
    (h : k ∉ dictKeys d) :
    dictSet d k v = d ++ [(k, v)] := by
  induction d with
  | nil => simp [dictSet]
  | cons p rest ih =>
    have hp : ¬ (p.1 = k) := fun hh => h (by simp [dictKeys, hh])
    have h2 : k ∉ dictKeys rest := fun hh => h (by simp [dictKeys] at hh ⊢; right; exact hh)
    simp [dictSet, hp, ih h2]

theorem dictDelete_dictSet (d : Dict) (k : String) (v : Val) :
    dictDelete (dictSet d k v) k = dictDelete d k := by
  induction d with
  | nil => simp [dictSet, dictDelete]
  | cons p rest ih =>
    by_cases hp : p.1 = k
    · simp [dictSet, dictDelete, hp]
    · simp [dictSet, dictDelete, hp, ih]

theorem dictSet_perm_delete {d : Dict} {k : String} {v0 : Val} (v : Val)
    (h : dictGet d k = some v0) :
    (dictSet d k v).Perm ((k, v) :: dictDelete d k) := by
  induction d with
  | nil => simp [dictGet] at h
  | cons p rest ih =>
    by_cases hp : p.1 = k
    · simp [dictSet, dictDelete, hp]
    · rw [dictGet, if_neg hp] at h
      have h1 : (dictSet (p :: rest) k v) = p :: dictSet rest k v := by
        simp [dictSet, hp]
      have h2 : dictDelete (p :: rest) k = p :: dictDelete rest k := by
        simp [dictDelete, hp]
      rw [h1, h2]
      exact ((ih h).cons p).trans (List.Perm.swap (k, v) p _)

theorem dictDelete_perm_entry {d : Dict} {k : String} {v : Val}
    (h : dictGet d k = some v) :
    d.Perm ((k, v) :: dictDelete d k) := by
  induction d with
  | nil => simp [dictGet] at h
  | cons p rest ih =>
    by_cases hp : p.1 = k
    · rw [dictGet, if_pos hp] at h
      cases h
      have hd : dictDelete (p :: rest) k = rest := by simp [dictDelete, hp]
      rw [hd]
      cases p
      simp only at hp
      subst hp
      exact List.Perm.refl _
    · rw [dictGet, if_neg hp] at h
      have hd : dictDelete (p :: rest) k = p :: dictDelete rest k := by
        simp [dictDelete, hp]
      rw [hd]
      exact ((ih h).cons p).trans (List.Perm.swap (k, v) p _)

theorem dictGet_dictDelete {d : Dict} (hnd : (dictKeys d).Nodup) (k k2 : String) :
    dictGet (dictDelete d k) k2 = if k2 = k then none else dictGet d k2 := by
  induction d with
  | nil => simp [dictDelete, dictGet]
  | cons p rest ih =>
    have hnd2 : (dictKeys rest).Nodup := (List.nodup_cons.mp hnd).2
    have hpn : p.1 ∉ dictKeys rest := (List.nodup_cons.mp hnd).1
    by_cases hp : p.1 = k
    · have hd : dictDelete (p :: rest) k = rest := by simp [dictDelete, hp]
      by_cases h2 : k2 = k
      · subst h2
        rw [hd, if_pos rfl, dictGet_eq_none_iff]
        intro hh
        exact hpn (by rw [hp]; exact hh)
      · have hq : ¬ (p.1 = k2) := fun hh => h2 (hh.symm.trans hp)
        have hg : dictGet (p :: rest) k2 = dictGet rest k2 := by
          rw [dictGet, if_neg hq]
        rw [hd, if_neg h2, hg]
    · by_cases h2 : k2 = k
      · subst h2
        have hq : ¬ (p.1 = k2) := hp
        have hd : dictDelete (p :: rest) k2 = p :: dictDelete rest k2 := by
          simp [dictDelete, hp]
        rw [hd, dictGet, if_neg hq, ih hnd2, if_pos rfl, if_pos rfl]
      · have hd : dictDelete (p :: rest) k = p :: dictDelete rest k := by
          simp [dictDelete, hp]
        by_cases hq : p.1 = k2
        · rw [hd, dictGet, if_pos hq, if_neg h2, dictGet, if_pos hq]
        · rw [hd, dictGet, if_neg hq, ih hnd2, if_neg h2, dictGet, if_neg hq]
          rw [if_neg h2]

theorem entriesSize_delete {d : Dict} {k : String} {v : Val}
    (h : dictGet d k = some v) :
    entriesSize d = 1 + valSize v + entriesSize (dictDelete d k) := by
  induction d with
  | nil => simp [dictGet] at h
  | cons p rest ih =>
    by_cases hp : p.1 = k
    · rw [dictGet, if_pos hp] at h
      cases h
      cases p
      simp only [dictDelete, if_pos hp]
      rfl
    · rw [dictGet, if_neg hp] at h
      have hd : dictDelete (p :: rest) k = p :: dictDelete rest k := by
        simp [dictDelete, hp]
      rw [hd]
      cases p with
      | mk a b =>
        show 1 + valSize b + entriesSize rest
          = 1 + valSize v + (1 + valSize b + entriesSize (dictDelete rest k))
        rw [ih h]
        omega

theorem ncStrongEntries_delete {d : Dict} (k : String)
    (h : ncStrongEntries d = true) : ncStrongEntries (dictDelete d k) = true := by
  induction d with
  | nil => simpa [dictDelete] using h
  | cons p rest ih =>
    rw [ncStrongEntries, Bool.and_eq_true] at h
    rcases h with ⟨h1, h2⟩
    by_cases hp : p.1 = k
    · simpa [dictDelete, hp] using h2
    · cases p
      simp only [dictDelete, if_neg hp]
      rw [ncStrongEntries, Bool.and_eq_true]
      exact ⟨h1, ih h2⟩

/-! ### Permutation transport for dict operations -/

theorem dictGet_perm {l1 l2 : Dict} (h : l1.Perm l2) :
    (dictKeys l1).Nodup → ∀ k, dictGet l1 k = dictGet l2 k := by
  induction h with
  | nil => intro _ k; rfl
  | cons x h ih =>
    intro hnd k
    have hnd2 := (List.nodup_cons.mp hnd).2
    by_cases hx : x.1 = k
    · simp [dictGet, hx]
    · simp [dictGet, hx, ih hnd2 k]
  | swap x y l =>
    intro hnd k
    have h1 : y.1 ∉ dictKeys (x :: l) := (List.nodup_cons.mp hnd).1
    have hxy : ¬ (y.1 = x.1) := fun hh => h1 (by rw [hh]; exact List.mem_cons_self _ _)
    by_cases hy : y.1 = k
    · have hx : ¬ (x.1 = k) := fun hh => hxy (hy.trans hh.symm)
      simp [dictGet, hy, hx]
    · by_cases hx : x.1 = k
      · simp [dictGet, hy, hx]
      · simp [dictGet, hy, hx]
  | trans h1 h2 ih1 ih2 =>
    intro hnd k
    have hndm := ((h1.map Prod.fst).nodup_iff).mp hnd
    exact (ih1 hnd k).trans (ih2 hndm k)

theorem dictSet_perm {l1 l2 : Dict} (h : l1.Perm l2) :
    (dictKeys l1).Nodup → ∀ (k : String) (v : Val),
      (dictSet l1 k v).Perm (dictSet l2 k v) := by
  induction h with
  | nil => intro _ k v; exact List.Perm.refl _
  | cons x h ih =>
    intro hnd k v
    have hnd2 := (List.nodup_cons.mp hnd).2
    by_cases hx : x.1 = k
    · simp only [dictSet, if_pos hx]
      exact h.cons _
    · simp only [dictSet, if_neg hx]
      exact (ih hnd2 k v).cons x
  | swap x y l =>
    intro hnd k v
    have h1 : y.1 ∉ dictKeys (x :: l) := (List.nodup_cons.mp hnd).1
    have hxy : ¬ (y.1 = x.1) := fun hh => h1 (by rw [hh]; exact List.mem_cons_self _ _)
    by_cases hy : y.1 = k
    · have hx : ¬ (x.1 = k) := fun hh => hxy (hy.trans hh.symm)
      have e1 : dictSet (y :: x :: l) k v = (k, v) :: x :: l := by
        simp [dictSet, hy]
      have e2 : dictSet (x :: y :: l) k v = x :: (k, v) :: l := by
        simp [dictSet, hx, hy]
      rw [e1, e2]
      exact List.Perm.swap x (k, v) l
    · by_cases hx : x.1 = k
      · have e1 : dictSet (y :: x :: l) k v = y :: (k, v) :: l := by
          simp [dictSet, hy, hx]
        have e2 : dictSet (x :: y :: l) k v = (k, v) :: y :: l := by
          simp [dictSet, hx]
        rw [e1, e2]
        exact List.Perm.swap (k, v) y l
      · have e1 : dictSet (y :: x :: l) k v = y :: x :: dictSet l k v := by
          simp [dictSet, hy, hx]
        have e2 : dictSet (x :: y :: l) k v = x :: y :: dictSet l k v := by
          simp [dictSet, hx, hy]
        rw [e1, e2]
        exact List.Perm.swap x y _
  | trans h1 h2 ih1 ih2 =>
    intro hnd k v
    have hndm := ((h1.map Prod.fst).nodup_iff).mp hnd
    exact (ih1 hnd k v).trans (ih2 hndm k v)

theorem dictDelete_perm {l1 l2 : Dict} (h : l1.Perm l2) :
    (dictKeys l1).Nodup → ∀ k : String,
      (dictDelete l1 k).Perm (dictDelete l2 k) := by
  induction h with
  | nil => intro _ k; exact List.Perm.refl _
  | cons x h ih =>
    intro hnd k
    have hnd2 := (List.nodup_cons.mp hnd).2
    by_cases hx : x.1 = k
    · simp only [dictDelete, if_pos hx]
      exact h
    · simp only [dictDelete, if_neg hx]
      exact (ih hnd2 k).cons x
  | swap x y l =>
    intro hnd k
    have h1 : y.1 ∉ dictKeys (x :: l) := (List.nodup_cons.mp hnd).1
    have hxy : ¬ (y.1 = x.1) := fun hh => h1 (by rw [hh]; exact List.mem_cons_self _ _)
    by_cases hy : y.1 = k
    · have hx : ¬ (x.1 = k) := fun hh => hxy (hy.trans hh.symm)
      have e1 : dictDelete (y :: x :: l) k = x :: l := by
        simp [dictDelete, hy]
      have e2 : dictDelete (x :: y :: l) k = x :: l := by
        simp [dictDelete, hx, hy]
      rw [e1, e2]
    · by_cases hx : x.1 = k
      · have e1 : dictDelete (y :: x :: l) k = y :: l := by
          simp [dictDelete, hy, hx]
        have e2 : dictDelete (x :: y :: l) k = y :: l := by
          simp [dictDelete, hx]
        rw [e1, e2]
      · have e1 : dictDelete (y :: x :: l) k = y :: x :: dictDelete l k := by
          simp [dictDelete, hy, hx]
        have e2 : dictDelete (x :: y :: l) k = x :: y :: dictDelete l k := by
          simp [dictDelete, hx, hy]
        rw [e1, e2]
        exact List.Perm.swap x y _
  | trans h1 h2 ih1 ih2 =>
    intro hnd k
    have hndm := ((h1.map Prod.fst).nodup_iff).mp hnd
    exact (ih1 hnd k).trans (ih2 hndm k)

theorem setPath_perm {l1 l2 : Dict} (h : l1.Perm l2)
    (hnd : (dictKeys l1).Nodup) (segs : List String) (last : String) (v : Val) :
    (setPath l1 segs last v = none ∧ setPath l2 segs last v = none)
      ∨ ∃ r1 r2, setPath l1 segs last v = some r1
          ∧ setPath l2 segs last v = some r2 ∧ r1.Perm r2 := by
  cases segs with
  | nil =>
    right
    exact ⟨_, _, rfl, rfl, dictSet_perm h hnd last v⟩
  | cons s rest =>
    have hg : dictGet l1 s = dictGet l2 s := dictGet_perm h hnd s
    rw [setPath, setPath, ← hg]
    cases hx : dictGet l1 s with
    | none =>
      dsimp only
      cases hin : setPath [] rest last v with
      | none => exact Or.inl ⟨rfl, rfl⟩
      | some i2 =>
        right
        exact ⟨_, _, rfl, rfl, dictSet_perm h hnd s (.vDict i2)⟩
    | some w =>
      cases w with
      | vInt n => exact Or.inl ⟨rfl, rfl⟩
      | vStr t => exact Or.inl ⟨rfl, rfl⟩
      | vDict inner =>
        dsimp only
        cases hin : setPath inner rest last v with
        | none => exact Or.inl ⟨rfl, rfl⟩
        | some i2 =>
          right
          exact ⟨_, _, rfl, rfl, dictSet_perm h hnd s (.vDict i2)⟩

theorem setPath_append_right (d1 d2 : Dict) (segs : List String) (last : String)
    (v : Val) (h : headKeyOf segs last ∉ dictKeys d1) :
    setPath (d1 ++ d2) segs last v = (setPath d2 segs last v).map (fun r => d1 ++ r) := by
  cases segs with
  | nil =>
    have h2 : last ∉ dictKeys d1 := h
    rw [setPath, setPath, dictSet_append_right d2 v h2]
    rfl
  | cons s rest =>
    have h2 : s ∉ dictKeys d1 := h
    have hg : dictGet (d1 ++ d2) s = dictGet d2 s := dictGet_append_right d2 h2
    rw [setPath, setPath, hg]
    cases hx : dictGet d2 s with
    | none =>
      dsimp only
      cases hin : setPath [] rest last v with
      | none => rfl
      | some i2 =>
        dsimp only
        rw [dictSet_append_right d2 _ h2]
        rfl
    | some w =>
      cases w with
      | vInt n => rfl
      | vStr t => rfl
      | vDict inner =>
        dsimp only
        cases hin : setPath inner rest last v with
        | none => rfl
        | some i2 =>
          dsimp only
          rw [dictSet_append_right d2 _ h2]
          rfl

/-! ### Canonical form lemmas -/

theorem dictDelete_not_mem {d : Dict} {k : String} (h : k ∉ dictKeys d) :
    dictDelete d k = d := by
  induction d with
  | nil => rfl
  | cons p rest ih =>
    have hp : ¬ (p.1 = k) := fun hh => h (by rw [← hh]; exact List.mem_cons_self _ _)
    have h2 : k ∉ dictKeys rest := fun hh => h (List.mem_cons_of_mem _ hh)
    simp [dictDelete, hp, ih h2]

theorem dictKeys_dictDelete_nodup {d : Dict} (hnd : (dictKeys d).Nodup)
    (k : String) : (dictKeys (dictDelete d k)).Nodup := by
  by_cases h : k ∈ dictKeys d
  · rcases Option.ne_none_iff_exists.mp
      (fun hh => (dictGet_eq_none_iff d k).mp hh h) with ⟨v, hv⟩
    have hperm := dictDelete_perm_entry hv.symm
    have := (hperm.map Prod.fst).nodup_iff.mpr
    have h2 := (hperm.map Prod.fst).nodup_iff.mp hnd
    exact (List.nodup_cons.mp h2).2
  · rw [dictDelete_not_mem h]
    exact hnd

theorem dictGet_dedupKeysAux : ∀ (l : Dict) (seen : List String) (k : String),
    dictGet (dedupKeysAux l seen) k = if k ∈ seen then none else dictGet l k := by
  intro l
  induction l with
  | nil => intro seen k; simp [dedupKeysAux, dictGet]
  | cons p rest ih =>
    intro seen k
    cases p with
    | mk k2 v =>
      by_cases hg : k2 ∈ seen
      · have hgb : seen.contains k2 = true := by simpa using hg
        rw [dedupKeysAux, if_pos hgb, ih seen k]
        by_cases hk : k ∈ seen
        · simp [hk]
        · have hne : ¬ (k2 = k) := fun hh => hk (hh ▸ hg)
          simp [hk, dictGet, hne]
      · have hgb : seen.contains k2 = false := by simpa using hg
        rw [dedupKeysAux, if_neg (by rw [hgb]; exact Bool.false_ne_true)]
        by_cases hpk : k2 = k
        · subst hpk
          have hk : k2 ∉ seen := hg
          simp [dictGet, hk]
        · rw [dictGet, if_neg hpk, ih (k2 :: seen) k]
          by_cases hk : k ∈ seen
          · simp [hk, List.mem_cons]
          · have : k ∉ k2 :: seen := by
              rw [List.mem_cons]
              rintro (h1 | h1)
              · exact hpk h1.symm
              · exact hk h1
            simp [hk, this, dictGet, hpk]

theorem dedupKeysAux_spec : ∀ (l : Dict) (seen : List String),
    (dictKeys (dedupKeysAux l seen)).Nodup
      ∧ ∀ k ∈ dictKeys (dedupKeysAux l seen), k ∉ seen := by
  intro l
  induction l with
  | nil => intro seen; simp [dedupKeysAux, dictKeys]
  | cons p rest ih =>
    intro seen
    cases p with
    | mk k2 v =>
      by_cases hg : k2 ∈ seen
      · have hgb : seen.contains k2 = true := by simpa using hg
        rw [dedupKeysAux, if_pos hgb]
        exact ih seen
      · have hgb : seen.contains k2 = false := by simpa using hg
        rw [dedupKeysAux, if_neg (by rw [hgb]; exact Bool.false_ne_true)]
        have hks : dictKeys ((k2, v) :: dedupKeysAux rest (k2 :: seen))
            = k2 :: dictKeys (dedupKeysAux rest (k2 :: seen)) := rfl
        rcases ih (k2 :: seen) with ⟨ihn, ihm⟩
        rw [hks]
        constructor
        · rw [List.nodup_cons]
          refine ⟨fun hh => ?_, ihn⟩
          exact (ihm k2 hh) (List.mem_cons_self _ _)
        · intro k hk
          rcases List.mem_cons.mp hk with h1 | h1
          · rw [h1]; exact hg
          · exact fun hh => (ihm k h1) (List.mem_cons_of_mem _ hh)

theorem dictGet_canonEntries : ∀ (d : Dict) (k : String),
    dictGet (canonEntries d) k = (dictGet d k).map canonVal := by
  intro d
  induction d with
  | nil => intro k; rfl
  | cons p rest ih =>
    intro k
    cases p with
    | mk k2 v =>
      by_cases hp : k2 = k
      · simp [canonEntries, dictGet, hp]
      · simp [canonEntries, dictGet, hp, ih k]

theorem dictGet_canonDict (d : Dict) (k : String) :
    dictGet (canonDict d) k = (dictGet d k).map canonVal := by
  rw [canonDict]
  have hnd := (dedupKeysAux_spec (canonEntries d) []).1
  rw [dictGet_perm (sortByKey_perm _)
      (((sortByKey_perm _).map Prod.fst).nodup_iff.mpr hnd) k]
  rw [dictGet_dedupKeysAux]
  simp [dictGet_canonEntries]

theorem canonDict_keys_nodup (d : Dict) : (dictKeys (canonDict d)).Nodup := by
  rw [canonDict]
  have hnd := (dedupKeysAux_spec (canonEntries d) []).1
  exact ((sortByKey_perm _).map Prod.fst).nodup_iff.mpr hnd

theorem canonDict_sorted (d : Dict) :
    (canonDict d).Pairwise (fun a b => keyLt b.1 a.1 = false) :=
  sortByKey_sorted _

theorem dictGet_head (p : String × Val) (t : Dict) : dictGet (p :: t) p.1 = some p.2 := by
  rw [dictGet, if_pos rfl]

theorem assoc_ext_perm : ∀ (l1 l2 : Dict),
    (dictKeys l1).Nodup → (dictKeys l2).Nodup →
    (∀ k, dictGet l1 k = dictGet l2 k) → l1.Perm l2 := by
  intro l1
  induction l1 with
  | nil =>
    intro l2 _ _ hl
    cases l2 with
    | nil => exact List.Perm.refl _
    | cons p t =>
      have := hl p.1
      rw [dictGet_head] at this
      simp [dictGet] at this
  | cons p t ih =>
    intro l2 hnd1 hnd2 hl
    have hp : dictGet l2 p.1 = some p.2 := by
      rw [← hl p.1, dictGet_head]
    have hperm2 : l2.Perm ((p.1, p.2) :: dictDelete l2 p.1) := dictDelete_perm_entry hp
    have hnd1t := (List.nodup_cons.mp hnd1).2
    have hp1t : p.1 ∉ dictKeys t := (List.nodup_cons.mp hnd1).1
    have hndd : (dictKeys (dictDelete l2 p.1)).Nodup := dictKeys_dictDelete_nodup hnd2 _
    have hlt : ∀ k, dictGet t k = dictGet (dictDelete l2 p.1) k := by
      intro k
      by_cases hk : k = p.1
      · subst hk
        rw [dictGet_dictDelete hnd2, if_pos rfl]
        exact (dictGet_eq_none_iff t p.1).mpr hp1t
      · rw [dictGet_dictDelete hnd2, if_neg hk]
        have : dictGet (p :: t) k = dictGet t k := by
          rw [dictGet, if_neg (fun hh => hk (hh.symm))]
        rw [← this, hl k]
    have := (ih (dictDelete l2 p.1) hnd1t hndd hlt).cons p
    have hpe : (p.1, p.2) = p := rfl
    rw [hpe] at hperm2
    exact this.trans hperm2.symm

theorem canonDict_ext {d1 d2 : Dict}
    (h : ∀ k, (dictGet d1 k).map canonVal = (dictGet d2 k).map canonVal) :
    canonDict d1 = canonDict d2 := by
  have hperm : (canonDict d1).Perm (canonDict d2) := by
    refine assoc_ext_perm _ _ (canonDict_keys_nodup d1) (canonDict_keys_nodup d2) ?_
    intro k
    rw [dictGet_canonDict, dictGet_canonDict]
    exact h k
  exact sorted_nodup_eq _ _ hperm (canonDict_sorted d1) (canonDict_sorted d2)
    (canonDict_keys_nodup d1)

theorem canonDict_lookup {d1 d2 : Dict} (h : canonDict d1 = canonDict d2) (k : String) :
    (dictGet d1 k).map canonVal = (dictGet d2 k).map canonVal := by
  rw [← dictGet_canonDict, ← dictGet_canonDict, h]

theorem canonDict_perm {l1 l2 : Dict} (h : l1.Perm l2)
    (hnd : (dictKeys l1).Nodup) : canonDict l1 = canonDict l2 := by
  refine canonDict_ext ?_
  intro k
  rw [dictGet_perm h hnd k]

/-! ### Node and chain lemmas -/

theorem nodeAtV_cons (a : String) (q : List String) (d : Dict) :
    nodeAtV (a :: q) (.vDict d)
      = match dictGet d a with
        | none => none
        | some w => nodeAtV q w := rfl

theorem nodeAtV_nil_dict : ∀ q : List String, q ≠ [] →
    nodeAtV q (.vDict ([] : Dict)) = none := by
  intro q hq
  cases q with
  | nil => exact absurd rfl hq
  | cons a as => rfl

theorem mem_of_dictGet_some {d : Dict} {k : String} {v : Val}
    (h : dictGet d k = some v) : k ∈ dictKeys d := by
  by_contra hmem
  rw [(dictGet_eq_none_iff d k).mpr hmem] at h
  cases h

theorem pathPre_single {q : List String} {x : String} (h : pathPre q [x] = true)
    (hq : q ≠ []) : q = [x] := by
  cases q with
  | nil => exact absurd rfl hq
  | cons a as =>
    rw [pathPre, Bool.and_eq_true, decide_eq_true_eq] at h
    rcases h with ⟨h1, h2⟩
    cases as with
    | nil => rw [h1]
    | cons b bs => simp [pathPre] at h2

theorem pathPre_cons_cons (a b : String) (q p : List String) :
    pathPre (a :: q) (b :: p) = (decide (a = b) && pathPre q p) := rfl

theorem dictSet_dictSet_same (d : Dict) (k : String) (v1 v2 : Val) :
    dictSet (dictSet d k v1) k v2 = dictSet d k v2 := by
  induction d with
  | nil => simp [dictSet]
  | cons p rest ih =>
    by_cases hp : p.1 = k
    · simp [dictSet, hp]
    · simp [dictSet, hp, ih]

theorem setPath_nil_eq : ∀ (segs : List String) (last : String) (v : Val),
    setPath ([] : Dict) segs last v = some (chainOf segs last v) := by
  intro segs
  induction segs with
  | nil => intro last v; rfl
  | cons s rest ih =>
    intro last v
    rw [setPath]
    have : dictGet ([] : Dict) s = none := rfl
    rw [this]
    dsimp only
    rw [ih last v]
    rfl

theorem canonVal_vDict (d : Dict) : canonVal (.vDict d) = .vDict (canonDict d) := rfl

theorem canonVal_eq_cases : ∀ v1 v2 : Val, canonVal v1 = canonVal v2 →
    (∃ n, v1 = .vInt n ∧ v2 = .vInt n)
      ∨ (∃ t, v1 = .vStr t ∧ v2 = .vStr t)
      ∨ ∃ i1 i2, v1 = .vDict i1 ∧ v2 = .vDict i2 ∧ canonDict i1 = canonDict i2 := by
  intro v1 v2 h
  cases v1 with
  | vInt n =>
    cases v2 with
    | vInt m => rw [show canonVal (Val.vInt n) = .vInt n from rfl,
        show canonVal (Val.vInt m) = .vInt m from rfl] at h
                cases h; exact Or.inl ⟨n, rfl, rfl⟩
    | vStr t => cases h
    | vDict i => cases h
  | vStr t =>
    cases v2 with
    | vInt m => cases h
    | vStr t2 => rw [show canonVal (Val.vStr t) = .vStr t from rfl,
        show canonVal (Val.vStr t2) = .vStr t2 from rfl] at h
                 cases h; exact Or.inr (Or.inl ⟨t, rfl, rfl⟩)
    | vDict i => cases h
  | vDict i1 =>
    cases v2 with
    | vInt m => cases h
    | vStr t => cases h
    | vDict i2 =>
      rw [canonVal_vDict, canonVal_vDict] at h
      injection h with h2
      exact Or.inr (Or.inr ⟨i1, i2, rfl, rfl, h2⟩)

theorem dictSet_canon_congr {b1 b2 : Dict} (hb : canonDict b1 = canonDict b2)
    {v1 v2 : Val} (hv : canonVal v1 = canonVal v2) (k : String) :
    canonDict (dictSet b1 k v1) = canonDict (dictSet b2 k v2) := by
  refine canonDict_ext ?_
  intro k2
  rw [dictGet_dictSet, dictGet_dictSet]
  by_cases hk : k2 = k
  · simp [hk, hv]
  · simp only [if_neg hk]
    exact canonDict_lookup hb k2

/-- `setPath` localized: the result on a nonempty path only rewrites the
head entry with the recursively written inner dict. -/
theorem setPath_cons_eq (b : Dict) (s : String) (rest : List String)
    (last : String) (v : Val) :
    setPath b (s :: rest) last v
      = (match dictGet b s with
          | none => setPath ([] : Dict) rest last v
          | some (.vDict inner) => setPath inner rest last v
          | some _ => none).map (fun ir => dictSet b s (.vDict ir)) := by
  rw [setPath]
  cases hx : dictGet b s with
  | none =>
    dsimp only
    cases hin : setPath ([] : Dict) rest last v with
    | none => rfl
    | some i2 => rfl
  | some w =>
    cases w with
    | vInt n => rfl
    | vStr t => rfl
    | vDict inner =>
      dsimp only
      cases hin : setPath inner rest last v with
      | none => rfl
      | some i2 => rfl

theorem setPath_nodeAt :
    ∀ (init : List String) (d r : Dict) (last : String) (v : Val),
      setPath d init last v = some r →
      (∀ ext, nodeAtV (init ++ [last] ++ ext) (.vDict r) = nodeAtV ext v)
        ∧ (∀ q, q ≠ [] → pathPre q (init ++ [last]) = true → q ≠ init ++ [last] →
            ∃ i, nodeAtV q (.vDict r) = some (.vDict i))
        ∧ (∀ q, q ≠ [] → pathsIndep q (init ++ [last]) = true →
            nodeAtV q (.vDict r) = nodeAtV q (.vDict d))
        ∧ (dictKeys r = dictKeys d
            ∨ dictKeys r = dictKeys d ++ [headKeyOf init last]) := by
  intro init
  induction init with
  | nil =>
    intro d r last v hr
    rw [setPath] at hr
    injection hr with hr
    subst hr
    refine ⟨?_, ?_, ?_, ?_⟩
    · intro ext
      rw [List.nil_append, List.cons_append, List.nil_append,
        nodeAtV_cons, dictGet_dictSet, if_pos rfl]
    · intro q hq hpre hne
      rw [List.nil_append] at hpre hne
      exact absurd (pathPre_single hpre hq) hne
    · intro q hq hindep
      rw [List.nil_append] at hindep
      cases q with
      | nil => exact absurd rfl hq
      | cons a as =>
        have ha : ¬ (a = last) := by
          intro hh
          subst hh
          have : pathPre [a] (a :: as) = true := by
            simp [pathPre, pathPre_refl]
          rw [pathsIndep, this] at hindep
          simp at hindep
        rw [nodeAtV_cons, nodeAtV_cons, dictGet_dictSet, if_neg ha]
    · by_cases hmem : last ∈ dictKeys d
      · exact Or.inl (dictKeys_dictSet_mem v hmem)
      · right
        rw [dictSet_eq_append v hmem]
        simp [dictKeys, headKeyOf]
  | cons s rest ih =>
    intro d r last v hr
    rw [setPath_cons_eq] at hr
    rcases Option.map_eq_some'.mp hr with ⟨ir, hir, hreq⟩
    subst hreq
    have hP : (s :: rest) ++ [last] = s :: (rest ++ [last]) := by simp
    cases hx : dictGet d s with
    | none =>
      rw [hx] at hir
      have ihh := ih ([] : Dict) ir last v hir
      refine ⟨?_, ?_, ?_, ?_⟩
      · intro ext
        rw [hP, List.cons_append, nodeAtV_cons, dictGet_dictSet, if_pos rfl]
        exact ihh.1 ext
      · intro q hq hpre hne
        rw [hP] at hpre hne
        cases q with
        | nil => exact absurd rfl hq
        | cons a q2 =>
          rw [pathPre_cons_cons, Bool.and_eq_true, decide_eq_true_eq] at hpre
          rcases hpre with ⟨ha, hpre2⟩
          subst ha
          cases q2 with
          | nil =>
            refine ⟨ir, ?_⟩
            rw [nodeAtV_cons, dictGet_dictSet, if_pos rfl]
            rfl
          | cons b bs =>
            have hne2 : b :: bs ≠ rest ++ [last] := fun hh => hne (by rw [hh])
            rcases ihh.2.1 (b :: bs) (List.cons_ne_nil _ _) hpre2 hne2 with ⟨i, hi⟩
            refine ⟨i, ?_⟩
            rw [nodeAtV_cons, dictGet_dictSet, if_pos rfl]
            exact hi
      · intro q hq hindep
        rw [hP] at hindep
        cases q with
        | nil => exact absurd rfl hq
        | cons a q2 =>
          by_cases ha : a = s
          · subst ha
            rw [pathsIndep_cons] at hindep
            have hq2 : q2 ≠ [] := by
              intro hh
              subst hh
              rw [pathsIndep] at hindep
              simp [pathPre] at hindep
            rw [nodeAtV_cons, dictGet_dictSet, if_pos rfl, nodeAtV_cons, hx]
            dsimp only
            rw [ihh.2.2.1 q2 hq2 hindep]
            exact nodeAtV_nil_dict q2 hq2
          · rw [nodeAtV_cons, dictGet_dictSet, if_neg ha, nodeAtV_cons]
      · right
        rw [dictSet_eq_append _ ((dictGet_eq_none_iff d s).mp hx)]
        simp [dictKeys, headKeyOf]
    | some w =>
      cases w with
      | vInt n => rw [hx] at hir; cases hir
      | vStr t => rw [hx] at hir; cases hir
      | vDict inner =>
        rw [hx] at hir
        have ihh := ih inner ir last v hir
        refine ⟨?_, ?_, ?_, ?_⟩
        · intro ext
          rw [hP, List.cons_append, nodeAtV_cons, dictGet_dictSet, if_pos rfl]
          exact ihh.1 ext
        · intro q hq hpre hne
          rw [hP] at hpre hne
          cases q with
          | nil => exact absurd rfl hq
          | cons a q2 =>
            rw [pathPre_cons_cons, Bool.and_eq_true, decide_eq_true_eq] at hpre
            rcases hpre with ⟨ha, hpre2⟩
            subst ha
            cases q2 with
            | nil =>
              refine ⟨ir, ?_⟩
              rw [nodeAtV_cons, dictGet_dictSet, if_pos rfl]
              rfl
            | cons b bs =>
              have hne2 : b :: bs ≠ rest ++ [last] := fun hh => hne (by rw [hh])
              rcases ihh.2.1 (b :: bs) (List.cons_ne_nil _ _) hpre2 hne2 with ⟨i, hi⟩
              refine ⟨i, ?_⟩
              rw [nodeAtV_cons, dictGet_dictSet, if_pos rfl]
              exact hi
        · intro q hq hindep
          rw [hP] at hindep
          cases q with
          | nil => exact absurd rfl hq
          | cons a q2 =>
            by_cases ha : a = s
            · subst ha
              rw [pathsIndep_cons] at hindep
              have hq2 : q2 ≠ [] := by
                intro hh
                subst hh
                rw [pathsIndep] at hindep
                simp [pathPre] at hindep
              rw [nodeAtV_cons, dictGet_dictSet, if_pos rfl, nodeAtV_cons, hx]
              dsimp only
              exact ihh.2.2.1 q2 hq2 hindep
            · rw [nodeAtV_cons, dictGet_dictSet, if_neg ha, nodeAtV_cons]
        · exact Or.inl (dictKeys_dictSet_mem _ (mem_of_dictGet_some hx))

theorem pathPre_extend {a b : List String} (c : List String)
    (h : pathPre a b = true) : pathPre a (b ++ c) = true :=
  pathPre_trans a b (b ++ c) h (pathPre_append b c)

theorem pathsIndep_elim {p q : List String} (h : pathsIndep p q = true) :
    pathPre p q = false ∧ pathPre q p = false := by
  rw [pathsIndep, Bool.and_eq_true] at h
  rcases h with ⟨h1, h2⟩
  constructor
  · cases hx : pathPre p q
    · rfl
    · rw [hx] at h1; cases h1
  · cases hx : pathPre q p
    · rfl
    · rw [hx] at h2; cases h2

theorem setPath_defined :
    ∀ (init : List String) (d : Dict) (last : String) (v : Val),
      (∀ q w, q ≠ [] → pathPre q init = true → nodeAtV q (.vDict d) = some w →
        ∃ i, w = .vDict i) →
      ∃ r, setPath d init last v = some r := by
  intro init
  induction init with
  | nil => intro d last v _; exact ⟨_, rfl⟩
  | cons s rest ihs =>
    intro d last v h
    rw [setPath_cons_eq]
    cases hx : dictGet d s with
    | none =>
      refine ⟨dictSet d s (.vDict (chainOf rest last v)), ?_⟩
      rw [setPath_nil_eq]
      rfl
    | some w =>
      have hnode : nodeAtV [s] (.vDict d) = some w := by
        rw [nodeAtV_cons, hx]
        rfl
      have hpre : pathPre [s] (s :: rest) = true := by
        rw [pathPre_cons_cons]
        simp [pathPre]
      rcases h [s] w (List.cons_ne_nil _ _) hpre hnode with ⟨i, hi⟩
      subst hi
      have hcond : ∀ q w2, q ≠ [] → pathPre q rest = true →
          nodeAtV q (.vDict i) = some w2 → ∃ j, w2 = .vDict j := by
        intro q w2 hq hqpre hqnode
        refine h (s :: q) w2 (List.cons_ne_nil _ _) ?_ ?_
        · rw [pathPre_cons_cons]
          simp [hqpre]
        · rw [nodeAtV_cons, hx]
          exact hqnode
      rcases ihs i last v hcond with ⟨r2, hr2⟩
      refine ⟨dictSet d s (.vDict r2), ?_⟩
      dsimp only
      rw [hr2]
      rfl

theorem BuiltInv_nil (P : List (List String)) : BuiltInv [] P := by
  intro q w hq hnode
  rw [nodeAtV_nil_dict q hq] at hnode
  cases hnode

theorem BuiltInv_defined {bd : Dict} {P : List (List String)}
    (hinv : BuiltInv bd P) (init : List String) (last : String) (v : Val)
    (hind : ∀ p ∈ P, pathsIndep (init ++ [last]) p = true) :
    ∃ r, setPath bd init last v = some r := by
  refine setPath_defined init bd last v ?_
  intro q w hq hqpre hqnode
  rcases hinv q w hq hqnode with ⟨⟨i, hi⟩, _, _, _⟩ | ⟨p, hp, hpre⟩
  · exact ⟨i, hi⟩
  · exfalso
    have h1 : pathPre q (init ++ [last]) = true := pathPre_extend [last] hqpre
    have h2 : pathPre p (init ++ [last]) = true := pathPre_trans _ _ _ hpre h1
    have h3 := (pathsIndep_elim (hind p hp)).2
    rw [h2] at h3
    cases h3

theorem BuiltInv_setPath {bd r : Dict} {P : List (List String)}
    {init : List String} {last : String} {v : Val}
    (hinv : BuiltInv bd P)
    (hr : setPath bd init last v = some r) :
    BuiltInv r ((init ++ [last]) :: P) := by
  intro q w hq hnode
  rcases setPath_nodeAt init bd r last v hr with ⟨_, s2, s3, _⟩
  by_cases hfull : q = init ++ [last]
  · refine Or.inr ⟨init ++ [last], List.mem_cons_self _ _, ?_⟩
    rw [hfull]
    exact pathPre_refl _
  · cases hcase : pathsIndep q (init ++ [last]) with
    | true =>
      rw [s3 q hq hcase] at hnode
      rcases hinv q w hq hnode with ⟨hd, p, hp, hpre⟩ | ⟨p, hp, hpre⟩
      · exact Or.inl ⟨hd, p, List.mem_cons_of_mem _ hp, hpre⟩
      · exact Or.inr ⟨p, List.mem_cons_of_mem _ hp, hpre⟩
    | false =>
      rcases (pathsIndep_eq_false_iff _ _).mp hcase with hqf | hfq
      · rcases s2 q hq hqf hfull with ⟨i, hi⟩
        rw [hnode] at hi
        injection hi with hi2
        exact Or.inl ⟨⟨i, hi2⟩, init ++ [last], List.mem_cons_self _ _, hqf⟩
      · exact Or.inr ⟨init ++ [last], List.mem_cons_self _ _, hfq⟩

theorem setPath_congr : ∀ (init : List String) {b1 b2 : Dict},
    canonDict b1 = canonDict b2 → ∀ (last : String) (v : Val),
    (setPath b1 init last v).map canonDict = (setPath b2 init last v).map canonDict := by
  intro init
  induction init with
  | nil =>
    intro b1 b2 hb last v
    rw [setPath, setPath]
    simp only [Option.map_some']
    exact congrArg some (dictSet_canon_congr hb rfl last)
  | cons s rest ih =>
    intro b1 b2 hb last v
    rw [setPath_cons_eq, setPath_cons_eq]
    have hlook := canonDict_lookup hb s
    cases h1 : dictGet b1 s with
    | none =>
      cases h2 : dictGet b2 s with
      | none =>
        dsimp only
        cases hX : setPath ([] : Dict) rest last v with
        | none => rfl
        | some ir =>
          simp only [Option.map_some']
          exact congrArg some (dictSet_canon_congr hb rfl s)
      | some w2 => simp [h1, h2] at hlook
    | some w1 =>
      cases h2 : dictGet b2 s with
      | none => simp [h1, h2] at hlook
      | some w2 =>
        rw [h1, h2] at hlook
        simp only [Option.map_some'] at hlook
        injection hlook with hw
        rcases canonVal_eq_cases w1 w2 hw with ⟨n, he1, he2⟩ | ⟨t, he1, he2⟩
          | ⟨i1, i2, he1, he2, hinner⟩
        · subst he1; subst he2; rfl
        · subst he1; subst he2; rfl
        · subst he1; subst he2
          dsimp only
          have hrec := ih hinner last v
          cases hi1 : setPath i1 rest last v with
          | none =>
            cases hi2 : setPath i2 rest last v with
            | none => rfl
            | some j2 => rw [hi1, hi2] at hrec; simp at hrec
          | some j1 =>
            cases hi2 : setPath i2 rest last v with
            | none => rw [hi1, hi2] at hrec; simp at hrec
            | some j2 =>
              rw [hi1, hi2] at hrec
              simp only [Option.map_some'] at hrec
              injection hrec with hj
              simp only [Option.map_some']
              refine congrArg some (dictSet_canon_congr hb ?_ s)
              rw [canonVal_vDict, canonVal_vDict, hj]

theorem dictGet_dictSet_same (d : Dict) (k : String) (v : Val) :
    dictGet (dictSet d k v) k = some v := by
  rw [dictGet_dictSet, if_pos rfl]

theorem dictGet_dictSet_other {k2 k : String} (h : k2 ≠ k) (d : Dict) (v : Val) :
    dictGet (dictSet d k v) k2 = dictGet d k2 := by
  rw [dictGet_dictSet, if_neg h]

theorem dictSet_comm_canon {k1 k2 : String} (hk : k1 ≠ k2) (b : Dict) (v1 v2 : Val) :
    canonDict (dictSet (dictSet b k1 v1) k2 v2)
      = canonDict (dictSet (dictSet b k2 v2) k1 v1) := by
  refine canonDict_ext ?_
  intro k
  rw [dictGet_dictSet, dictGet_dictSet, dictGet_dictSet, dictGet_dictSet]
  by_cases h2 : k = k2
  · have h1 : ¬ k = k1 := fun hh => hk (hh.symm.trans h2)
    simp [h1, h2, Ne.symm hk]
  · by_cases h1 : k = k1
    · simp [h1, h2, hk]
    · simp [h1, h2]

/-- Two `setPath` writes whose full paths are independent (neither a prefix
of the other) commute up to `canonDict`, including matching failure. -/
theorem setPath_swap : ∀ (init1 : List String) (l1 : String) (v1 : Val)
    (init2 : List String) (l2 : String) (v2 : Val) (b : Dict),
    pathsIndep (init1 ++ [l1]) (init2 ++ [l2]) = true →
    ((setPath b init1 l1 v1).bind (fun m => setPath m init2 l2 v2)).map canonDict
      = ((setPath b init2 l2 v2).bind (fun m => setPath m init1 l1 v1)).map canonDict := by
  intro init1
  induction init1 with
  | nil =>
    intro l1 v1 init2 l2 v2 b h
    cases init2 with
    | nil =>
      have hne : l1 ≠ l2 := by
        have h1 := (pathsIndep_elim h).1
        simp [pathPre] at h1
        exact h1
      exact congrArg some (dictSet_comm_canon hne b v1 v2)
    | cons s2 r2 =>
      have hne : l1 ≠ s2 := by
        have h1 := (pathsIndep_elim h).1
        simp [pathPre] at h1
        exact h1
      have e1 : setPath b [] l1 v1 = some (dictSet b l1 v1) := rfl
      rw [e1]
      dsimp only [Option.bind]
      rw [setPath_cons_eq (dictSet b l1 v1) s2 r2 l2 v2, setPath_cons_eq b s2 r2 l2 v2]
      rw [dictGet_dictSet_other (Ne.symm hne) b v1]
      cases hg : dictGet b s2 with
      | none =>
        dsimp only
        rw [setPath_nil_eq r2 l2 v2]
        dsimp only [Option.map, Option.bind]
        exact congrArg some (dictSet_comm_canon hne b v1 (.vDict (chainOf r2 l2 v2)))
      | some w =>
        cases w with
        | vInt n => rfl
        | vStr t => rfl
        | vDict i =>
          dsimp only
          cases hin : setPath i r2 l2 v2 with
          | none => rfl
          | some j =>
            exact congrArg some (dictSet_comm_canon hne b v1 (.vDict j))
  | cons s1 r1 ih =>
    intro l1 v1 init2 l2 v2 b h
    cases init2 with
    | nil =>
      have hne : l2 ≠ s1 := by
        have h2 := (pathsIndep_elim h).2
        simp [pathPre] at h2
        exact h2
      have e2 : setPath b [] l2 v2 = some (dictSet b l2 v2) := rfl
      rw [e2]
      dsimp only [Option.bind]
      rw [setPath_cons_eq b s1 r1 l1 v1, setPath_cons_eq (dictSet b l2 v2) s1 r1 l1 v1]
      rw [dictGet_dictSet_other (Ne.symm hne) b v2]
      cases hg : dictGet b s1 with
      | none =>
        dsimp only
        rw [setPath_nil_eq r1 l1 v1]
        dsimp only [Option.map, Option.bind]
        exact congrArg some (dictSet_comm_canon (Ne.symm hne) b (.vDict (chainOf r1 l1 v1)) v2)
      | some w =>
        cases w with
        | vInt n => rfl
        | vStr t => rfl
        | vDict i =>
          dsimp only
          cases hin : setPath i r1 l1 v1 with
          | none => rfl
          | some j =>
            exact congrArg some (dictSet_comm_canon (Ne.symm hne) b (.vDict j) v2)
    | cons s2 r2 =>
      by_cases hs : s1 = s2
      · subst hs
        have h' : pathsIndep (r1 ++ [l1]) (r2 ++ [l2]) = true := by
          rw [List.cons_append, List.cons_append, pathsIndep_cons] at h
          exact h
        rw [setPath_cons_eq b s1 r1 l1 v1, setPath_cons_eq b s1 r2 l2 v2]
        cases hg : dictGet b s1 with
        | none =>
          dsimp only
          rw [setPath_nil_eq r1 l1 v1, setPath_nil_eq r2 l2 v2]
          dsimp only [Option.map, Option.bind]
          rw [setPath_cons_eq (dictSet b s1 (.vDict (chainOf r1 l1 v1))) s1 r2 l2 v2,
              setPath_cons_eq (dictSet b s1 (.vDict (chainOf r2 l2 v2))) s1 r1 l1 v1]
          rw [dictGet_dictSet_same, dictGet_dictSet_same]
          dsimp only
          have hI := ih l1 v1 r2 l2 v2 [] h'
          rw [setPath_nil_eq r1 l1 v1, setPath_nil_eq r2 l2 v2] at hI
          dsimp only [Option.bind] at hI
          cases h12 : setPath (chainOf r1 l1 v1) r2 l2 v2 with
          | none =>
            cases h21 : setPath (chainOf r2 l2 v2) r1 l1 v1 with
            | none => rfl
            | some j21 => rw [h12, h21] at hI; simp at hI
          | some j12 =>
            cases h21 : setPath (chainOf r2 l2 v2) r1 l1 v1 with
            | none => rw [h12, h21] at hI; simp at hI
            | some j21 =>
              rw [h12, h21] at hI
              dsimp only [Option.map] at hI
              injection hI with hj
              dsimp only [Option.map]
              rw [dictSet_dictSet_same, dictSet_dictSet_same]
              exact congrArg some
                (dictSet_canon_congr rfl (by rw [canonVal_vDict, canonVal_vDict, hj]) s1)
        | some w =>
          cases w with
          | vInt n => rfl
          | vStr t => rfl
          | vDict i =>
            dsimp only
            have hI := ih l1 v1 r2 l2 v2 i h'
            cases hi1 : setPath i r1 l1 v1 with
            | none =>
              rw [hi1] at hI
              dsimp only [Option.bind, Option.map] at hI
              dsimp only [Option.map, Option.bind]
              cases hi2 : setPath i r2 l2 v2 with
              | none => rfl
              | some j2 =>
                rw [hi2] at hI
                dsimp only [Option.bind] at hI
                dsimp only [Option.map, Option.bind]
                rw [setPath_cons_eq (dictSet b s1 (.vDict j2)) s1 r1 l1 v1,
                    dictGet_dictSet_same]
                dsimp only
                cases hi21 : setPath j2 r1 l1 v1 with
                | none => rfl
                | some j21 => rw [hi21] at hI; simp at hI
            | some j1 =>
              rw [hi1] at hI
              dsimp only [Option.bind] at hI
              dsimp only [Option.map, Option.bind]
              rw [setPath_cons_eq (dictSet b s1 (.vDict j1)) s1 r2 l2 v2,
                  dictGet_dictSet_same]
              dsimp only
              cases hi12 : setPath j1 r2 l2 v2 with
              | none =>
                rw [hi12] at hI
                dsimp only [Option.map] at hI
                cases hi2 : setPath i r2 l2 v2 with
                | none => rfl
                | some j2 =>
                  rw [hi2] at hI
                  dsimp only [Option.bind] at hI
                  dsimp only [Option.map, Option.bind]
                  rw [setPath_cons_eq (dictSet b s1 (.vDict j2)) s1 r1 l1 v1,
                      dictGet_dictSet_same]
                  dsimp only
                  cases hi21 : setPath j2 r1 l1 v1 with
                  | none => rfl
                  | some j21 => rw [hi21] at hI; simp at hI
              | some j12 =>
                rw [hi12] at hI
                cases hi2 : setPath i r2 l2 v2 with
                | none => rw [hi2] at hI; simp at hI
                | some j2 =>
                  rw [hi2] at hI
                  dsimp only [Option.bind] at hI
                  dsimp only [Option.map, Option.bind]
                  rw [setPath_cons_eq (dictSet b s1 (.vDict j2)) s1 r1 l1 v1,
                      dictGet_dictSet_same]
                  dsimp only
                  cases hi21 : setPath j2 r1 l1 v1 with
                  | none => rw [hi21] at hI; simp at hI
                  | some j21 =>
                    rw [hi21] at hI
                    dsimp only [Option.map] at hI
                    injection hI with hj
                    dsimp only [Option.map]
                    rw [dictSet_dictSet_same, dictSet_dictSet_same]
                    exact congrArg some
                      (dictSet_canon_congr rfl
                        (by rw [canonVal_vDict, canonVal_vDict, hj]) s1)
      · rw [setPath_cons_eq b s1 r1 l1 v1, setPath_cons_eq b s2 r2 l2 v2]
        cases hg1 : dictGet b s1 with
        | none =>
          dsimp only
          rw [setPath_nil_eq r1 l1 v1]
          dsimp only [Option.map, Option.bind]
          rw [setPath_cons_eq (dictSet b s1 (.vDict (chainOf r1 l1 v1))) s2 r2 l2 v2]
          rw [dictGet_dictSet_other (Ne.symm hs) b (.vDict (chainOf r1 l1 v1))]
          cases hg2 : dictGet b s2 with
          | none =>
            dsimp only
            rw [setPath_nil_eq r2 l2 v2]
            dsimp only [Option.map, Option.bind]
            rw [setPath_cons_eq (dictSet b s2 (.vDict (chainOf r2 l2 v2))) s1 r1 l1 v1]
            rw [dictGet_dictSet_other hs b (.vDict (chainOf r2 l2 v2)), hg1]
            dsimp only
            rw [setPath_nil_eq r1 l1 v1]
            dsimp only [Option.map]
            exact congrArg some
              (dictSet_comm_canon hs b (.vDict (chainOf r1 l1 v1))
                (.vDict (chainOf r2 l2 v2)))
          | some w2 =>
            cases w2 with
            | vInt n => rfl
            | vStr t => rfl
            | vDict i2 =>
              dsimp only
              cases hin2 : setPath i2 r2 l2 v2 with
              | none => rfl
              | some j2 =>
                dsimp only [Option.map, Option.bind]
                rw [setPath_cons_eq (dictSet b s2 (.vDict j2)) s1 r1 l1 v1]
                rw [dictGet_dictSet_other hs b (.vDict j2), hg1]
                dsimp only
                rw [setPath_nil_eq r1 l1 v1]
                dsimp only [Option.map]
                exact congrArg some
                  (dictSet_comm_canon hs b (.vDict (chainOf r1 l1 v1)) (.vDict j2))
        | some w1 =>
          cases w1 with
          | vInt n =>
            dsimp only
            cases hg2 : dictGet b s2 with
            | none =>
              dsimp only
              rw [setPath_nil_eq r2 l2 v2]
              dsimp only [Option.map, Option.bind]
              rw [setPath_cons_eq (dictSet b s2 (.vDict (chainOf r2 l2 v2))) s1 r1 l1 v1]
              rw [dictGet_dictSet_other hs b (.vDict (chainOf r2 l2 v2)), hg1]
              rfl
            | some w2 =>
              cases w2 with
              | vInt m => rfl
              | vStr t => rfl
              | vDict i2 =>
                dsimp only
                cases hin2 : setPath i2 r2 l2 v2 with
                | none => rfl
                | some j2 =>
                  dsimp only [Option.map, Option.bind]
                  rw [setPath_cons_eq (dictSet b s2 (.vDict j2)) s1 r1 l1 v1]
                  rw [dictGet_dictSet_other hs b (.vDict j2), hg1]
                  rfl
          | vStr t =>
            dsimp only
            cases hg2 : dictGet b s2 with
            | none =>
              dsimp only
              rw [setPath_nil_eq r2 l2 v2]
              dsimp only [Option.map, Option.bind]
              rw [setPath_cons_eq (dictSet b s2 (.vDict (chainOf r2 l2 v2))) s1 r1 l1 v1]
              rw [dictGet_dictSet_other hs b (.vDict (chainOf r2 l2 v2)), hg1]
              rfl
            | some w2 =>
              cases w2 with
              | vInt m => rfl
              | vStr t2 => rfl
              | vDict i2 =>
                dsimp only
                cases hin2 : setPath i2 r2 l2 v2 with
                | none => rfl
                | some j2 =>
                  dsimp only [Option.map, Option.bind]
                  rw [setPath_cons_eq (dictSet b s2 (.vDict j2)) s1 r1 l1 v1]
                  rw [dictGet_dictSet_other hs b (.vDict j2), hg1]
                  rfl
          | vDict i1 =>
            dsimp only
            cases hin1 : setPath i1 r1 l1 v1 with
            | none =>
              cases hg2 : dictGet b s2 with
              | none =>
                dsimp only
                rw [setPath_nil_eq r2 l2 v2]
                dsimp only [Option.map, Option.bind]
                rw [setPath_cons_eq (dictSet b s2 (.vDict (chainOf r2 l2 v2))) s1 r1 l1 v1]
                rw [dictGet_dictSet_other hs b (.vDict (chainOf r2 l2 v2)), hg1]
                dsimp only
                rw [hin1]
                rfl
              | some w2 =>
                cases w2 with
                | vInt m => rfl
                | vStr t2 => rfl
                | vDict i2 =>
                  dsimp only
                  cases hin2 : setPath i2 r2 l2 v2 with
                  | none => rfl
                  | some j2 =>
                    dsimp only [Option.map, Option.bind]
                    rw [setPath_cons_eq (dictSet b s2 (.vDict j2)) s1 r1 l1 v1]
                    rw [dictGet_dictSet_other hs b (.vDict j2), hg1]
                    dsimp only
                    rw [hin1]
                    rfl
            | some j1 =>
              dsimp only [Option.map, Option.bind]
              rw [setPath_cons_eq (dictSet b s1 (.vDict j1)) s2 r2 l2 v2]
              rw [dictGet_dictSet_other (Ne.symm hs) b (.vDict j1)]
              cases hg2 : dictGet b s2 with
              | none =>
                dsimp only
                rw [setPath_nil_eq r2 l2 v2]
                dsimp only [Option.map, Option.bind]
                rw [setPath_cons_eq (dictSet b s2 (.vDict (chainOf r2 l2 v2))) s1 r1 l1 v1]
                rw [dictGet_dictSet_other hs b (.vDict (chainOf r2 l2 v2)), hg1]
                dsimp only
                rw [hin1]
                dsimp only [Option.map]
                exact congrArg some
                  (dictSet_comm_canon hs b (.vDict j1) (.vDict (chainOf r2 l2 v2)))
              | some w2 =>
                cases w2 with
                | vInt m => rfl
                | vStr t2 => rfl
                | vDict i2 =>
                  dsimp only
                  cases hin2 : setPath i2 r2 l2 v2 with
                  | none => rfl
                  | some j2 =>
                    dsimp only [Option.map, Option.bind]
                    rw [setPath_cons_eq (dictSet b s2 (.vDict j2)) s1 r1 l1 v1]
                    rw [dictGet_dictSet_other hs b (.vDict j2), hg1]
                    dsimp only
                    rw [hin1]
                    dsimp only [Option.map]
                    exact congrArg some
                      (dictSet_comm_canon hs b (.vDict j1) (.vDict j2))

theorem dictKeys_dictSet_nodup {d : Dict} (hnd : (dictKeys d).Nodup)
    (k : String) (v : Val) : (dictKeys (dictSet d k v)).Nodup := by
  by_cases h : k ∈ dictKeys d
  · rw [dictKeys_dictSet_mem v h]
    exact hnd
  · rw [dictSet_eq_append v h]
    have he : dictKeys (d ++ [(k, v)]) = dictKeys d ++ [k] := by
      simp [dictKeys]
    rw [he]
    simp [List.nodup_append, hnd, h]

theorem setPath_nodup {d r : Dict} (hnd : (dictKeys d).Nodup)
    {init : List String} {last : String} {v : Val}
    (h : setPath d init last v = some r) : (dictKeys r).Nodup := by
  cases init with
  | nil =>
    rw [setPath] at h
    injection h with h2
    rw [← h2]
    exact dictKeys_dictSet_nodup hnd last v
  | cons s rest =>
    rw [setPath_cons_eq] at h
    cases hX : (match dictGet d s with
        | none => setPath ([] : Dict) rest last v
        | some (.vDict inner) => setPath inner rest last v
        | some _ => none) with
    | none => rw [hX] at h; cases h
    | some ir =>
      rw [hX] at h
      injection h with h2
      rw [← h2]
      exact dictKeys_dictSet_nodup hnd s (.vDict ir)

theorem dictGet_state_pend {st pend bd : Dict} (hp : st.Perm (pend ++ bd))
    (hnd : (dictKeys st).Nodup) {k : String} (h : k ∈ dictKeys pend) :
    dictGet st k = dictGet pend k := by
  rw [dictGet_perm hp hnd k, dictGet_append_left bd h]

theorem dictGet_state_bd {st pend bd : Dict} (hp : st.Perm (pend ++ bd))
    (hnd : (dictKeys st).Nodup) {k : String} (h : k ∉ dictKeys pend) :
    dictGet st k = dictGet bd k := by
  rw [dictGet_perm hp hnd k, dictGet_append_right bd h]

/-- Writing along a path whose head is not a pending key acts on the built
part of the mixed state: the mixed result is a permutation of the pending
entries plus the built result. -/
theorem setPath_state {st pend bd : Dict} (hp : st.Perm (pend ++ bd))
    (hnd : (dictKeys st).Nodup) (init : List String) (last : String) (v : Val)
    (hhead : headKeyOf init last ∉ dictKeys pend) {bd2 : Dict}
    (hbd : setPath bd init last v = some bd2) :
    ∃ st2, setPath st init last v = some st2 ∧ st2.Perm (pend ++ bd2)
      ∧ (dictKeys st2).Nodup := by
  have happ : setPath (pend ++ bd) init last v = some (pend ++ bd2) := by
    rw [setPath_append_right pend bd init last v hhead, hbd]
    rfl
  rcases setPath_perm hp hnd init last v with ⟨h1, h2⟩ | ⟨r1, r2, h1, h2, h3⟩
  · rw [happ] at h2; cases h2
  · rw [happ] at h2
    injection h2 with h2
    subst h2
    exact ⟨r1, h1, h3, setPath_nodup hnd h1⟩

theorem splitDotsAux_mem_no_dot : ∀ (cs acc : List Char) (l : List Char),
    l ∈ splitDotsAux cs acc → ('.' ∈ acc → False) → '.' ∈ l → False := by
  intro cs
  induction cs with
  | nil =>
    intro acc l hl hacc hdot
    simp [splitDotsAux] at hl
    subst hl
    exact hacc (by simpa using hdot)
  | cons c rest ih =>
    intro acc l hl hacc hdot
    by_cases hc : c = '.'
    · rw [splitDotsAux, if_pos hc] at hl
      rcases List.mem_cons.mp hl with he | hm
      · subst he; exact hacc (by simpa using hdot)
      · exact ih [] l hm (by intro hx; simp at hx) hdot
    · rw [splitDotsAux, if_neg hc] at hl
      refine ih (c :: acc) l hl ?_ hdot
      intro hx
      rcases List.mem_cons.mp hx with he | hm
      · exact hc he.symm
      · exact hacc hm

theorem splitKey_mem_no_dot {k h : String} (hm : h ∈ splitKey k) :
    hasDot h = false := by
  rw [splitKey] at hm
  rcases List.mem_map.mp hm with ⟨cs, hcs, he⟩
  have hnd : '.' ∈ cs → False :=
    fun hd => splitDotsAux_mem_no_dot k.data [] cs hcs (by intro hx; simp at hx) hd
  rw [← he, hasDot]
  simpa using hnd

theorem headKey_prefix (init : List String) (last : String) :
    pathPre [headKeyOf init last] (init ++ [last]) = true := by
  cases init with
  | nil => simp [headKeyOf, pathPre]
  | cons s rest => simp [headKeyOf, pathPre]

theorem headKey_mem (init : List String) (last : String) :
    headKeyOf init last ∈ init ++ [last] := by
  cases init with
  | nil => simp [headKeyOf]
  | cons s rest => simp [headKeyOf]

theorem pairwiseIndep_mem_ne {L : List (List String)} (h : pairwiseIndep L = true)
    {a b : List String} (ha : a ∈ L) (hb : b ∈ L) (hne : a ≠ b) :
    pathsIndep a b = true := by
  rw [pairwiseIndep_iff] at h
  exact List.Pairwise.forall
    (fun {x y} hxy => by rw [pathsIndep_symm]; exact hxy) h ha hb hne

theorem pairwiseIndep_append_left {l1 l2 : List (List String)}
    (h : pairwiseIndep (l1 ++ l2) = true) : pairwiseIndep l1 = true := by
  rw [pairwiseIndep_iff] at h ⊢
  exact (List.pairwise_append.mp h).1

theorem pairwiseIndep_append_cross {l1 l2 : List (List String)}
    (h : pairwiseIndep (l1 ++ l2) = true) {a b : List String}
    (ha : a ∈ l1) (hb : b ∈ l2) : pathsIndep a b = true := by
  rw [pairwiseIndep_iff] at h
  exact (List.pairwise_append.mp h).2.2 a ha b hb

theorem pairwiseIndep_keys_nodup {d : Dict}
    (h : pairwiseIndep (d.map (fun e => splitKey e.1)) = true) :
    (dictKeys d).Nodup := by
  rw [pairwiseIndep_iff] at h
  have hne : (d.map (fun e => splitKey e.1)).Pairwise (fun p q => p ≠ q) :=
    h.imp (fun hpq => pathsIndep_ne _ _ hpq)
  have hnd : (d.map (fun e => splitKey e.1)).Nodup := hne
  have he : d.map (fun e => splitKey e.1) = (dictKeys d).map splitKey := by
    simp [dictKeys, List.map_map]
  rw [he] at hnd
  exact hnd.of_map splitKey

theorem ncStrongVal_of_get : ∀ {d : Dict} {k : String} {v : Val},
    ncStrongEntries d = true → dictGet d k = some v → ncStrongVal v = true := by
  intro d
  induction d with
  | nil => intro k v _ hg; cases hg
  | cons p rest ih =>
    intro k v hnc hg
    rw [ncStrongEntries] at hnc
    rw [Bool.and_eq_true] at hnc
    rw [dictGet] at hg
    by_cases hp : p.1 = k
    · rw [if_pos hp] at hg
      injection hg with hg
      rw [← hg]
      exact hnc.1
    · rw [if_neg hp] at hg
      exact ih hnc.2 hg

/-- A key whose full split path is independent from every realized path of
the built structure has no top-level binding there. -/
theorem bd_top_free {bd : Dict} {P : List (List String)} (hinv : BuiltInv bd P)
    {k : String} (hind : ∀ p ∈ P, pathsIndep [k] p = true) :
    dictGet bd k = none := by
  cases hg : dictGet bd k with
  | none => rfl
  | some w =>
    exfalso
    have hnode : nodeAtV [k] (.vDict bd) = some w := by
      rw [nodeAtV_cons, hg]
      rfl
    rcases hinv [k] w (List.cons_ne_nil _ _) hnode with ⟨_, p, hp, hpre⟩ | ⟨p, hp, hpre⟩
    · have := (pathsIndep_elim (hind p hp)).1
      rw [hpre] at this
      cases this
    · have := (pathsIndep_elim (hind p hp)).2
      rw [hpre] at this
      cases this

theorem dictGet_mem : ∀ {d : Dict} {k : String} {v : Val},
    dictGet d k = some v → (k, v) ∈ d := by
  intro d
  induction d with
  | nil => intro k v hg; cases hg
  | cons p rest ih =>
    intro k v hg
    rw [dictGet] at hg
    by_cases hp : p.1 = k
    · rw [if_pos hp] at hg
      injection hg with hg
      have : p = (k, v) := by
        rcases p with ⟨pk, pv⟩
        simp at hp hg
        rw [hp, hg]
      rw [← this]
      exact List.mem_cons_self _ _
    · rw [if_neg hp] at hg
      exact List.mem_cons_of_mem _ (ih hg)

/-- For a dotted pending key, the head segment of its split path is not a
pending top-level key (its one-segment path would break pairwise
independence). -/
theorem pend_head_free {pend : Dict} {k : String} {v : Val}
    (hpi : pairwiseIndep (pend.map (fun e => splitKey e.1)) = true)
    (hv : dictGet pend k = some v) (hdot : hasDot k = true) :
    headKeyOf (splitKey k).dropLast ((splitKey k).getLastD "") ∉ dictKeys pend := by
  intro hmem
  have hinsplit : headKeyOf (splitKey k).dropLast ((splitKey k).getLastD "")
      ∈ splitKey k := by
    have := headKey_mem (splitKey k).dropLast ((splitKey k).getLastD "")
    rw [splitKey_dropLast_append k] at this
    exact this
  have hno : hasDot (headKeyOf (splitKey k).dropLast ((splitKey k).getLastD ""))
      = false := splitKey_mem_no_dot hinsplit
  have hsplith := splitKey_no_dot hno
  rcases List.mem_map.mp hmem with ⟨e, he, heq⟩
  have hpath1 : [headKeyOf (splitKey k).dropLast ((splitKey k).getLastD "")]
      ∈ pend.map (fun e => splitKey e.1) := by
    refine List.mem_map.mpr ⟨e, he, ?_⟩
    rw [heq, hsplith]
  have hpath2 : splitKey k ∈ pend.map (fun e => splitKey e.1) :=
    List.mem_map.mpr ⟨(k, v), dictGet_mem hv, rfl⟩
  have hne : [headKeyOf (splitKey k).dropLast ((splitKey k).getLastD "")]
      ≠ splitKey k := by
    intro he2
    have h2 := splitKey_two_le hdot
    rw [← he2] at h2
    simp at h2
  have hind := pairwiseIndep_mem_ne hpi hpath1 hpath2 hne
  have hpre : pathPre [headKeyOf (splitKey k).dropLast ((splitKey k).getLastD "")]
      (splitKey k) = true := by
    have := headKey_prefix (splitKey k).dropLast ((splitKey k).getLastD "")
    rw [splitKey_dropLast_append k] at this
    exact this
  have := (pathsIndep_elim hind).1
  rw [hpre] at this
  cases this

theorem opsOf_cons_get {pend : Dict} {k : String} {v : Val} (ks : List String)
    (hv : dictGet pend k = some v) :
    opsOf pend (k :: ks) = (k, v) :: opsOf pend ks := by
  rw [opsOf, opsOf, List.filterMap_cons, hv]
  rfl

theorem opsOf_delete {pend : Dict} (hnd : (dictKeys pend).Nodup)
    {k : String} {ks : List String} (hk : k ∉ ks) :
    opsOf (dictDelete pend k) ks = opsOf pend ks := by
  rw [opsOf, opsOf]
  refine List.filterMap_congr ?_
  intro a ha
  have hne : a ≠ k := fun he => hk (he ▸ ha)
  rw [dictGet_dictDelete hnd k a, if_neg hne]

theorem dictKeys_delete_perm {pend : Dict} {k : String} {v : Val}
    (hv : dictGet pend k = some v) :
    (dictKeys pend).Perm (k :: dictKeys (dictDelete pend k)) := by
  have := (dictDelete_perm_entry hv).map Prod.fst
  simpa [dictKeys] using this

theorem unfoldKeys_fuel_mono : ∀ (f : Nat) (cfg : Dict) (ord : List String) (r : Dict),
    unfoldKeys f cfg ord = some r → unfoldKeys (f + 1) cfg ord = some r := by
  intro f
  induction f with
  | zero =>
    intro cfg ord r h
    cases ord with
    | nil =>
      rw [unfoldKeys] at h ⊢
      exact h
    | cons k ks => simp [unfoldKeys] at h
  | succ f ih =>
    intro cfg ord r h
    cases ord with
    | nil =>
      rw [unfoldKeys] at h ⊢
      exact h
    | cons k ks =>
      rw [unfoldKeys] at h
      rw [unfoldKeys]
      cases hg : dictGet cfg k with
      | none =>
        rw [hg] at h
        dsimp only at h ⊢
        exact ih cfg ks r h
      | some w =>
        rw [hg] at h
        cases w with
        | vInt n =>
          dsimp only at h ⊢
          cases hp : placeKey cfg k (.vInt n) with
          | none => rw [hp] at h; dsimp only at h; cases h
          | some cfg2 =>
            rw [hp] at h
            dsimp only at h ⊢
            exact ih cfg2 ks r h
        | vStr t =>
          dsimp only at h ⊢
          cases hp : placeKey cfg k (.vStr t) with
          | none => rw [hp] at h; dsimp only at h; cases h
          | some cfg2 =>
            rw [hp] at h
            dsimp only at h ⊢
            exact ih cfg2 ks r h
        | vDict inner =>
          dsimp only at h ⊢
          cases hin : unfoldKeys f inner (dictKeys inner) with
          | none => rw [hin] at h; dsimp only at h; cases h
          | some inner2 =>
            rw [hin] at h
            rw [ih inner (dictKeys inner) inner2 hin]
            dsimp only at h ⊢
            cases hp : placeKey (dictSet cfg k (.vDict inner2)) k (.vDict inner2) with
            | none => rw [hp] at h; dsimp only at h; cases h
            | some cfg2 =>
              rw [hp] at h
              dsimp only at h ⊢
              exact ih cfg2 ks r h

theorem unfoldKeys_fuel_le {f g : Nat} (hle : f ≤ g) {cfg : Dict}
    {ord : List String} {r : Dict} (h : unfoldKeys f cfg ord = some r) :
    unfoldKeys g cfg ord = some r := by
  induction g with
  | zero =>
    have hz : f = 0 := Nat.le_zero.mp hle
    rw [hz] at h
    exact h
  | succ g ihg =>
    rcases Nat.lt_or_ge f (g + 1) with hlt | hge
    · exact unfoldKeys_fuel_mono g cfg ord r (ihg (Nat.lt_succ_iff.mp hlt))
    · have he : f = g + 1 := Nat.le_antisymm hle hge
      rw [he] at h
      exact h

theorem opsFold_congr : ∀ (ops : List (String × Val)) {b1 b2 : Dict},
    canonDict b1 = canonDict b2 →
    (opsFold b1 ops).map canonDict = (opsFold b2 ops).map canonDict := by
  intro ops
  induction ops with
  | nil =>
    intro b1 b2 hb
    rw [opsFold, opsFold]
    dsimp only [Option.map]
    rw [hb]
  | cons op rest ih =>
    intro b1 b2 hb
    obtain ⟨k, v⟩ := op
    rw [opsFold, opsFold]
    cases hu : unfoldVal v with
    | none => rfl
    | some v2 =>
      dsimp only
      have hap : (applyOp b1 k v2).map canonDict = (applyOp b2 k v2).map canonDict :=
        setPath_congr (splitKey k).dropLast hb ((splitKey k).getLastD "") v2
      cases ha1 : applyOp b1 k v2 with
      | none =>
        cases ha2 : applyOp b2 k v2 with
        | none => rfl
        | some c2 => rw [ha1, ha2] at hap; simp at hap
      | some c1 =>
        cases ha2 : applyOp b2 k v2 with
        | none => rw [ha1, ha2] at hap; simp at hap
        | some c2 =>
          rw [ha1, ha2] at hap
          dsimp only [Option.map] at hap
          injection hap with hc
          dsimp only
          exact ih hc

theorem opsFold_swap_head {k1 k2 : String} {v1 v2 : Val}
    (hind : pathsIndep (splitKey k1) (splitKey k2) = true)
    (rest : List (String × Val)) (b : Dict) :
    (opsFold b ((k1, v1) :: (k2, v2) :: rest)).map canonDict
      = (opsFold b ((k2, v2) :: (k1, v1) :: rest)).map canonDict := by
  rw [opsFold, opsFold]
  cases hu1 : unfoldVal v1 with
  | none =>
    cases hu2 : unfoldVal v2 with
    | none => rfl
    | some w2 =>
      dsimp only
      cases ha2 : applyOp b k2 w2 with
      | none => rfl
      | some c2 =>
        dsimp only
        rw [opsFold, hu1]
  | some w1 =>
    cases hu2 : unfoldVal v2 with
    | none =>
      dsimp only
      cases ha1 : applyOp b k1 w1 with
      | none => rfl
      | some c1 =>
        dsimp only
        rw [opsFold, hu2]
    | some w2 =>
      dsimp only
      have hind2 : pathsIndep ((splitKey k1).dropLast ++ [(splitKey k1).getLastD ""])
          ((splitKey k2).dropLast ++ [(splitKey k2).getLastD ""]) = true := by
        rw [splitKey_dropLast_append, splitKey_dropLast_append]
        exact hind
      have hS2 : ((applyOp b k1 w1).bind (fun m => applyOp m k2 w2)).map canonDict
          = ((applyOp b k2 w2).bind (fun m => applyOp m k1 w1)).map canonDict :=
        setPath_swap (splitKey k1).dropLast ((splitKey k1).getLastD "") w1
          (splitKey k2).dropLast ((splitKey k2).getLastD "") w2 b hind2
      cases ha1 : applyOp b k1 w1 with
      | none =>
        rw [ha1] at hS2
        dsimp only [Option.bind, Option.map] at hS2
        cases ha2 : applyOp b k2 w2 with
        | none => rfl
        | some c2 =>
          rw [ha2] at hS2
          dsimp only [Option.bind] at hS2
          dsimp only
          rw [opsFold, hu1]
          dsimp only
          cases ha21 : applyOp c2 k1 w1 with
          | none => rfl
          | some c21 => rw [ha21] at hS2; simp at hS2
      | some c1 =>
        dsimp only
        rw [opsFold, hu2]
        dsimp only
        rw [ha1] at hS2
        dsimp only [Option.bind] at hS2
        cases ha12 : applyOp c1 k2 w2 with
        | none =>
          rw [ha12] at hS2
          dsimp only [Option.map] at hS2
          cases ha2 : applyOp b k2 w2 with
          | none => rfl
          | some c2 =>
            rw [ha2] at hS2
            dsimp only [Option.bind] at hS2
            dsimp only
            rw [opsFold, hu1]
            dsimp only
            cases ha21 : applyOp c2 k1 w1 with
            | none => rfl
            | some c21 => rw [ha21] at hS2; simp at hS2
        | some c12 =>
          rw [ha12] at hS2
          cases ha2 : applyOp b k2 w2 with
          | none => rw [ha2] at hS2; simp at hS2
          | some c2 =>
            rw [ha2] at hS2
            dsimp only [Option.bind] at hS2
            dsimp only
            rw [opsFold, hu1]
            dsimp only
            cases ha21 : applyOp c2 k1 w1 with
            | none => rw [ha21] at hS2; simp at hS2
            | some c21 =>
              rw [ha21] at hS2
              dsimp only [Option.map] at hS2
              injection hS2 with hc
              dsimp only
              exact opsFold_congr rest hc

theorem opsFold_perm {ops1 ops2 : List (String × Val)} (hperm : ops1.Perm ops2) :
    pairwiseIndep (ops1.map (fun e => splitKey e.1)) = true →
    ∀ b, (opsFold b ops1).map canonDict = (opsFold b ops2).map canonDict := by
  induction hperm with
  | nil => intro _ b; rfl
  | cons x h ih =>
    intro hpi b
    obtain ⟨k, v⟩ := x
    rw [List.map_cons, pairwiseIndep, Bool.and_eq_true] at hpi
    rw [opsFold, opsFold]
    cases hu : unfoldVal v with
    | none => rfl
    | some v2 =>
      dsimp only
      cases ha : applyOp b k v2 with
      | none => rfl
      | some b2 =>
        dsimp only
        exact ih hpi.2 b2
  | swap x y l =>
    intro hpi b
    obtain ⟨k1, v1⟩ := y
    obtain ⟨k2, v2⟩ := x
    have hind : pathsIndep (splitKey k1) (splitKey k2) = true := by
      rw [List.map_cons, List.map_cons, pairwiseIndep, Bool.and_eq_true] at hpi
      have h1 := hpi.1
      rw [List.all_cons, Bool.and_eq_true] at h1
      exact h1.1
    exact opsFold_swap_head hind l b
  | trans h1 h2 ih1 ih2 =>
    intro hpi b
    have hpi2 := pairwiseIndep_perm (h1.map (fun e => splitKey e.1)) hpi
    rw [ih1 hpi b, ih2 hpi2 b]

theorem paths_eq_keys_map (d : Dict) :
    d.map (fun e => splitKey e.1) = (dictKeys d).map splitKey := by
  simp [dictKeys, List.map_map]

/-- One `placeKey` step on the mixed state corresponds to one `applyOp` on
the built part: both succeed, the new mixed state is a permutation of the
remaining pending entries plus the new built part, and the invariant
extends by the key's realized path. -/
theorem place_step {st1 pend1 bd : Dict} {P : List (List String)} {k : String}
    {v2 : Val}
    (hp1 : st1.Perm (pend1 ++ bd))
    (hnd1 : (dictKeys st1).Nodup)
    (hget1 : dictGet pend1 k = some v2)
    (hpi1 : pairwiseIndep (pend1.map (fun e => splitKey e.1)) = true)
    (hinv : BuiltInv bd P)
    (hcross : ∀ p ∈ P, pathsIndep (splitKey k) p = true) :
    ∃ cfg2 bd2, placeKey st1 k v2 = some cfg2 ∧ applyOp bd k v2 = some bd2
      ∧ cfg2.Perm (dictDelete pend1 k ++ bd2) ∧ (dictKeys cfg2).Nodup
      ∧ BuiltInv bd2 (splitKey k :: P) := by
  by_cases hdot : hasDot k = true
  · have hind : ∀ p ∈ P,
        pathsIndep ((splitKey k).dropLast ++ [(splitKey k).getLastD ""]) p = true := by
      intro p hpP
      rw [splitKey_dropLast_append]
      exact hcross p hpP
    rcases BuiltInv_defined hinv (splitKey k).dropLast ((splitKey k).getLastD "") v2 hind
      with ⟨bd2, hbd2⟩
    have hhead := pend_head_free hpi1 hget1 hdot
    rcases setPath_state hp1 hnd1 (splitKey k).dropLast ((splitKey k).getLastD "") v2
      hhead hbd2 with ⟨st2, hst2, hst2perm, hst2nd⟩
    refine ⟨dictDelete st2 k, bd2, ?_, hbd2, ?_, ?_, ?_⟩
    · rw [placeKey, if_pos hdot, hst2]
    · have hdel := dictDelete_perm hst2perm hst2nd k
      rw [dictDelete_append_left bd2 (mem_of_dictGet_some hget1)] at hdel
      exact hdel
    · exact dictKeys_dictDelete_nodup hst2nd k
    · have hbi := BuiltInv_setPath hinv hbd2
      rw [splitKey_dropLast_append] at hbi
      exact hbi
  · have hdotf : hasDot k = false := by
      cases hx : hasDot k
      · rfl
      · exact absurd hx hdot
    have hsplit : splitKey k = [k] := splitKey_no_dot hdotf
    have happ : applyOp bd k v2 = some (dictSet bd k v2) := by
      rw [applyOp, hsplit]
      rfl
    have hfree : dictGet bd k = none := by
      refine bd_top_free hinv ?_
      intro p hpP
      rw [← hsplit]
      exact hcross p hpP
    have hknotbd : k ∉ dictKeys bd := fun hm =>
      (dictGet_eq_none_iff bd k).mp hfree hm
    refine ⟨st1, dictSet bd k v2, ?_, happ, ?_, hnd1, ?_⟩
    · rw [placeKey, if_neg (by rw [hdotf]; exact Bool.false_ne_true)]
    · have h1 : pend1.Perm ((k, v2) :: dictDelete pend1 k) :=
        dictDelete_perm_entry hget1
      have h2 : (pend1 ++ bd).Perm (((k, v2) :: dictDelete pend1 k) ++ bd) :=
        h1.append_right bd
      have h3 : (((k, v2) :: dictDelete pend1 k) ++ bd).Perm
          (dictDelete pend1 k ++ ((k, v2) :: bd)) := List.perm_middle.symm
      have h4 : ((k, v2) :: bd).Perm (bd ++ [(k, v2)]) :=
        (List.perm_append_singleton (k, v2) bd).symm
      have h5 : (dictDelete pend1 k ++ ((k, v2) :: bd)).Perm
          (dictDelete pend1 k ++ (bd ++ [(k, v2)])) :=
        h4.append_left (dictDelete pend1 k)
      rw [dictSet_eq_append v2 hknotbd]
      exact hp1.trans (h2.trans (h3.trans h5))
    · have hr : setPath bd ([] : List String) k v2 = some (dictSet bd k v2) := rfl
      have hbi := BuiltInv_setPath hinv hr
      rw [hsplit]
      simpa using hbi

/-- One run of the `_unfold_config` loop on a mixed state (pending entries
plus already-built structure) succeeds and is, up to top-level permutation,
the replay of unfold-and-place writes of the pending entries in processing
order onto the built part. -/
theorem unfold_aux : ∀ (fuel : Nat) (pend st bd : Dict) (ord : List String)
    (P : List (List String)),
    entriesSize pend < fuel →
    st.Perm (pend ++ bd) →
    (dictKeys st).Nodup →
    ord.Perm (dictKeys pend) →
    ncStrongEntries pend = true →
    BuiltInv bd P →
    pairwiseIndep (pend.map (fun e => splitKey e.1) ++ P) = true →
    ∃ r bf, unfoldKeys fuel st ord = some r
      ∧ opsFold bd (opsOf pend ord) = some bf
      ∧ r.Perm bf ∧ (dictKeys r).Nodup := by
  intro fuel
  induction fuel using Nat.strong_induction_on with
  | _ fuel ih =>
  intro pend st bd ord P hsize hp hnd hord hnc hinv hpi
  cases ord with
  | nil =>
    have hkeys : dictKeys pend = [] := hord.symm.eq_nil
    have hpendnil : pend = [] := List.map_eq_nil_iff.mp hkeys
    subst hpendnil
    refine ⟨st, bd, ?_, rfl, ?_, hnd⟩
    · rw [unfoldKeys]
    · simpa using hp
  | cons k ks =>
    cases fuel with
    | zero => exact absurd hsize (Nat.not_lt_zero _)
    | succ f =>
    have hkmem : k ∈ dictKeys pend := hord.mem_iff.mp (List.mem_cons_self k ks)
    have hvex : dictGet pend k ≠ none :=
      fun hh => (dictGet_eq_none_iff pend k).mp hh hkmem
    rcases Option.ne_none_iff_exists.mp hvex with ⟨v, hv⟩
    have hgv : dictGet pend k = some v := hv.symm
    have hstv : dictGet st k = some v := by
      rw [dictGet_state_pend hp hnd hkmem]
      exact hgv
    have hpendnd : (dictKeys pend).Nodup :=
      pairwiseIndep_keys_nodup (pairwiseIndep_append_left hpi)
    have hkks : k ∉ ks := by
      have hordnd : (k :: ks).Nodup := hord.nodup_iff.mpr hpendnd
      exact (List.nodup_cons.mp hordnd).1
    have hksperm : ks.Perm (dictKeys (dictDelete pend k)) := by
      have h1 : (dictKeys pend).Perm (k :: dictKeys (dictDelete pend k)) :=
        dictKeys_delete_perm hgv
      exact (hord.trans h1).cons_inv
    have hsizedel := entriesSize_delete hgv
    have hsizeF : entriesSize (dictDelete pend k) < f := by omega
    have hncF : ncStrongEntries (dictDelete pend k) = true :=
      ncStrongEntries_delete k hnc
    have hmp : (pend.map (fun e => splitKey e.1)).Perm
        (splitKey k :: (dictDelete pend k).map (fun e => splitKey e.1)) := by
      have := (dictDelete_perm_entry hgv).map (fun e => splitKey e.1)
      simpa using this
    have hpiF : pairwiseIndep
        ((dictDelete pend k).map (fun e => splitKey e.1) ++ (splitKey k :: P))
          = true := by
      refine pairwiseIndep_perm ?_ hpi
      refine (hmp.append_right P).trans ?_
      exact List.perm_middle.symm
    have hncv : ncStrongVal v = true := ncStrongVal_of_get hnc hgv
    have hcross : ∀ p ∈ P, pathsIndep (splitKey k) p = true := by
      intro p hpP
      exact pairwiseIndep_append_cross hpi
        (List.mem_map.mpr ⟨(k, v), dictGet_mem hgv, rfl⟩) hpP
    have hopshead : opsOf pend (k :: ks) = (k, v) :: opsOf (dictDelete pend k) ks := by
      rw [opsOf_cons_get ks hgv, opsOf_delete hpendnd hkks]
    cases v with
    | vInt n =>
      rcases place_step hp hnd hgv (pairwiseIndep_append_left hpi) hinv hcross
        with ⟨cfg2, bd2, hplace, happly, hcfg2perm, hcfg2nd, hinv2⟩
      rcases ih f (Nat.lt_succ_self f) (dictDelete pend k) cfg2 bd2 ks
        (splitKey k :: P) hsizeF hcfg2perm hcfg2nd hksperm hncF hinv2 hpiF
        with ⟨r, bf, hr, hops, hrperm, hrnd⟩
      refine ⟨r, bf, ?_, ?_, hrperm, hrnd⟩
      · rw [unfoldKeys, hstv]
        dsimp only
        rw [hplace]
        dsimp only
        exact hr
      · rw [hopshead, opsFold]
        dsimp only [unfoldVal]
        rw [happly]
        dsimp only
        exact hops
    | vStr t =>
      rcases place_step hp hnd hgv (pairwiseIndep_append_left hpi) hinv hcross
        with ⟨cfg2, bd2, hplace, happly, hcfg2perm, hcfg2nd, hinv2⟩
      rcases ih f (Nat.lt_succ_self f) (dictDelete pend k) cfg2 bd2 ks
        (splitKey k :: P) hsizeF hcfg2perm hcfg2nd hksperm hncF hinv2 hpiF
        with ⟨r, bf, hr, hops, hrperm, hrnd⟩
      refine ⟨r, bf, ?_, ?_, hrperm, hrnd⟩
      · rw [unfoldKeys, hstv]
        dsimp only
        rw [hplace]
        dsimp only
        exact hr
      · rw [hopshead, opsFold]
        dsimp only [unfoldVal]
        rw [happly]
        dsimp only
        exact hops
    | vDict inner =>
      rw [ncStrongVal, Bool.and_eq_true] at hncv
      have hpii : pairwiseIndep (inner.map (fun e => splitKey e.1)) = true := hncv.1
      have hncei : ncStrongEntries inner = true := hncv.2
      have hinnernd : (dictKeys inner).Nodup := pairwiseIndep_keys_nodup hpii
      have hsizeinner : entriesSize inner + 1 < f + 1 := by
        have hvs : valSize (.vDict inner) = 1 + entriesSize inner := rfl
        omega
      rcases ih (entriesSize inner + 1) hsizeinner inner inner ([] : Dict)
        (dictKeys inner) ([] : List (List String)) (Nat.lt_succ_self _)
        (by rw [List.append_nil]) hinnernd (List.Perm.refl _) hncei
        (BuiltInv_nil []) (by rw [List.append_nil]; exact hpii)
        with ⟨ri, bfi, hri, hopsi, hpermi, hndi⟩
      have hriF : unfoldKeys f inner (dictKeys inner) = some ri :=
        unfoldKeys_fuel_le (by omega) hri
      have huval : unfoldVal (.vDict inner) = some (.vDict ri) := by
        rw [unfoldVal, hri]
        rfl
      have hstate : (dictSet st k (.vDict ri)).Perm
          (dictSet pend k (.vDict ri) ++ bd) := by
        have h1 := dictSet_perm hp hnd k (.vDict ri)
        rw [dictSet_append_left bd (.vDict ri) hkmem] at h1
        exact h1
      have hnd1 : (dictKeys (dictSet st k (.vDict ri))).Nodup :=
        dictKeys_dictSet_nodup hnd k (.vDict ri)
      have hget1 : dictGet (dictSet pend k (.vDict ri)) k = some (.vDict ri) :=
        dictGet_dictSet_same pend k (.vDict ri)
      have hpi1 : pairwiseIndep
          ((dictSet pend k (.vDict ri)).map (fun e => splitKey e.1)) = true := by
        rw [paths_eq_keys_map, dictKeys_dictSet_mem (.vDict ri) hkmem,
          ← paths_eq_keys_map]
        exact pairwiseIndep_append_left hpi
      rcases place_step hstate hnd1 hget1 hpi1 hinv hcross
        with ⟨cfg2, bd2, hplace, happly, hcfg2perm, hcfg2nd, hinv2⟩
      rw [dictDelete_dictSet pend k (.vDict ri)] at hcfg2perm
      rcases ih f (Nat.lt_succ_self f) (dictDelete pend k) cfg2 bd2 ks
        (splitKey k :: P) hsizeF hcfg2perm hcfg2nd hksperm hncF hinv2 hpiF
        with ⟨r, bf, hr, hops, hrperm, hrnd⟩
      refine ⟨r, bf, ?_, ?_, hrperm, hrnd⟩
      · rw [unfoldKeys, hstv]
        dsimp only
        rw [hriF]
        dsimp only
        rw [hplace]
        dsimp only
        exact hr
      · rw [hopshead, opsFold, huval]
        dsimp only
        rw [happly]
        dsimp only
        exact hops

theorem ncStrongEntries_iff : ∀ d : Dict,
    ncStrongEntries d = true ↔ ∀ e ∈ d, ncStrongVal e.2 = true := by
  intro d
  induction d with
  | nil => simp [ncStrongEntries]
  | cons e rest ih =>
    obtain ⟨k, v⟩ := e
    rw [ncStrongEntries, Bool.and_eq_true, ih]
    constructor
    · rintro ⟨h1, h2⟩ e he
      rcases List.mem_cons.mp he with he1 | he2
      · rw [he1]; exact h1
      · exact h2 e he2
    · intro h
      exact ⟨h (k, v) (List.mem_cons_self _ _),
        fun e he => h e (List.mem_cons_of_mem _ he)⟩

theorem ncStrongEntries_perm {d1 d2 : Dict} (h : d1.Perm d2)
    (h1 : ncStrongEntries d1 = true) : ncStrongEntries d2 = true := by
  rw [ncStrongEntries_iff] at h1 ⊢
  intro e he
  exact h1 e (h.mem_iff.mpr he)

theorem opsOf_self : ∀ {d : Dict}, (dictKeys d).Nodup → opsOf d (dictKeys d) = d := by
  intro d
  induction d with
  | nil => intro _; rfl
  | cons e rest ih =>
    intro hnd
    obtain ⟨k, v⟩ := e
    have hkeys : dictKeys ((k, v) :: rest) = k :: dictKeys rest := rfl
    rw [hkeys] at hnd ⊢
    have hknotin : k ∉ dictKeys rest := (List.nodup_cons.mp hnd).1
    have hndrest : (dictKeys rest).Nodup := (List.nodup_cons.mp hnd).2
    have hget : dictGet ((k, v) :: rest) k = some v := by rw [dictGet, if_pos rfl]
    rw [opsOf, List.filterMap_cons, hget]
    dsimp only [Option.map]
    congr 1
    have hcong : ∀ k2 ∈ dictKeys rest,
        (dictGet ((k, v) :: rest) k2).map (fun w => (k2, w))
          = (dictGet rest k2).map (fun w => (k2, w)) := by
      intro k2 hk2
      have hne : ¬ (k = k2) := fun he => hknotin (he ▸ hk2)
      rw [dictGet, if_neg hne]
    exact (List.filterMap_congr hcong).trans (ih hndrest)

/-- Claim C8, counterexample: the mapping `{"a.b": {"x": 1}, "a.b.c": 2}` is
non-conflicting in the literal sense of the specification (all realized
write paths are distinct), yet the result of `Model._unfold_config` depends
on the processing order of the keys: the two insertion orders of the same
mapping (equal as Python dicts) unflatten to structurally different
results — one keeps the write at `a.b.c`, the other loses it. -/
theorem unfold_config_order_dependent :
    nonConflicting [("a.b", Val.vDict [("x", Val.vInt 1)]), ("a.b.c", Val.vInt 2)]
      ∧ nonConflicting [("a.b.c", Val.vInt 2), ("a.b", Val.vDict [("x", Val.vInt 1)])]
      ∧ canonDict [("a.b", Val.vDict [("x", Val.vInt 1)]), ("a.b.c", Val.vInt 2)]
          = canonDict [("a.b.c", Val.vInt 2), ("a.b", Val.vDict [("x", Val.vInt 1)])]
      ∧ Model.unfold_config
          [("a.b", Val.vDict [("x", Val.vInt 1)]), ("a.b.c", Val.vInt 2)]
          = some [("a", Val.vDict
              [("b", Val.vDict [("x", Val.vInt 1), ("c", Val.vInt 2)])])]
      ∧ Model.unfold_config
          [("a.b.c", Val.vInt 2), ("a.b", Val.vDict [("x", Val.vInt 1)])]
          = some [("a", Val.vDict [("b", Val.vDict [("x", Val.vInt 1)])])]
      ∧ canonDict [("a", Val.vDict
            [("b", Val.vDict [("x", Val.vInt 1), ("c", Val.vInt 2)])])]
          ≠ canonDict [("a", Val.vDict [("b", Val.vDict [("x", Val.vInt 1)])])] := by
  unfold nonConflicting
  decide

/-- Claim C8, amended: for mappings satisfying the strengthened non-conflict
condition `ncStrong` (within every dict of the structure, the split key
paths are pairwise non-prefix of one another), `Model._unfold_config`
succeeds and the result is the same nested structure — equal in the Python
`==` sense, i.e. up to `canonDict` — for every processing order of the
keys, here expressed as: any two insertion orders of the same mapping
unflatten to Python-equal results. -/
theorem unfold_config_order_independent (cfg1 cfg2 : Dict)
    (hnc : ncStrong cfg1 = true) (hperm : cfg1.Perm cfg2) :
    ∃ r1 r2, Model.unfold_config cfg1 = some r1
      ∧ Model.unfold_config cfg2 = some r2
      ∧ canonDict r1 = canonDict r2 := by
  rw [ncStrong, Bool.and_eq_true] at hnc
  obtain ⟨hpi1, hnce1⟩ := hnc
  have hnd1 : (dictKeys cfg1).Nodup := pairwiseIndep_keys_nodup hpi1
  have hpathsperm := hperm.map (fun e => splitKey e.1)
  have hpi2 : pairwiseIndep (cfg2.map (fun e => splitKey e.1)) = true :=
    pairwiseIndep_perm hpathsperm hpi1
  have hnce2 : ncStrongEntries cfg2 = true := ncStrongEntries_perm hperm hnce1
  have hnd2 : (dictKeys cfg2).Nodup := pairwiseIndep_keys_nodup hpi2
  rcases unfold_aux (entriesSize cfg1 + 1) cfg1 cfg1 [] (dictKeys cfg1) []
    (Nat.lt_succ_self _) (by rw [List.append_nil]) hnd1 (List.Perm.refl _)
    hnce1 (BuiltInv_nil []) (by rw [List.append_nil]; exact hpi1)
    with ⟨r1, bf1, hr1, hops1, hperm1, hndr1⟩
  rcases unfold_aux (entriesSize cfg2 + 1) cfg2 cfg2 [] (dictKeys cfg2) []
    (Nat.lt_succ_self _) (by rw [List.append_nil]) hnd2 (List.Perm.refl _)
    hnce2 (BuiltInv_nil []) (by rw [List.append_nil]; exact hpi2)
    with ⟨r2, bf2, hr2, hops2, hperm2, hndr2⟩
  refine ⟨r1, r2, hr1, hr2, ?_⟩
  rw [opsOf_self hnd1] at hops1
  rw [opsOf_self hnd2] at hops2
  have hfold := opsFold_perm hperm hpi1 ([] : Dict)
  rw [hops1, hops2] at hfold
  dsimp only [Option.map] at hfold
  injection hfold with hbf
  calc canonDict r1 = canonDict bf1 := canonDict_perm hperm1 hndr1
    _ = canonDict bf2 := hbf
    _ = canonDict r2 := (canonDict_perm hperm2 hndr2).symm

/-- Claim C8, witness for the amended theorem at a concrete input: the
mapping `{"a.b": 1, "c": 2}` is strongly non-conflicting and its two
insertion orders unflatten to Python-equal results. -/
theorem unfold_config_order_independent_witness :
    ncStrong [("a.b", Val.vInt 1), ("c", Val.vInt 2)] = true
      ∧ ([("a.b", Val.vInt 1), ("c", Val.vInt 2)] : Dict).Perm
          [("c", Val.vInt 2), ("a.b", Val.vInt 1)]
      ∧ ∃ r1 r2,
          Model.unfold_config [("a.b", Val.vInt 1), ("c", Val.vInt 2)] = some r1
          ∧ Model.unfold_config [("c", Val.vInt 2), ("a.b", Val.vInt 1)] = some r2
          ∧ canonDict r1 = canonDict r2 :=
  ⟨by decide, List.Perm.swap _ _ _,
    unfold_config_order_independent _ _ (by decide) (List.Perm.swap _ _ _)⟩
